import Mathlib

/-!
Verification of the go-cfr core: the robust-sampling and chance-sampling
Monte-Carlo CFR traversal engines, the tabular PolicyTable strategy profile,
and the LevelDB-backed persistent reservoir buffer.

The Go source is shallowly embedded:
* `float32`/`float64` values are modelled as `ℚ`;
* the game tree interface `GameTreeNode` is modelled as a finite inductive
  tree carrying a node id, acting player, infoset key and children;
* randomness (`rand.Shuffle`, `SampleChild`, `sampleOne`, `rand.Intn`) is
  supplied by an explicit oracle / explicit draw arguments, so theorems
  quantify over all possible draws;
* the side effects performed through the `NodePolicy` interface
  (`AddRegret`, `AddStrategyWeight`) and the `Close` resource calls are
  recorded in an explicit event trace;
* recursion over the game tree is driven by a fuel parameter (the Go
  recursion always terminates on a finite tree; fuel exhaustion returns a
  neutral result and is unreachable once fuel exceeds the tree size).
-/

namespace GoCfr

/-- A game tree node, embedding the `GameTreeNode` interface: every node
carries a numeric id (standing for the node's identity, used to record
`Close` calls), terminal nodes a per-player utility, player nodes the acting
player and the acting player's infoset key. -/
inductive GameTree where
  | terminal (id : Nat) (utility : Nat → ℚ)
  | chance (id : Nat) (children : List GameTree)
  | player (id : Nat) (p : Nat) (key : String) (children : List GameTree)

/-- The node's id (identity used to record `Close` calls). -/
def rootId : GameTree → Nat
  | .terminal i _ => i
  | .chance i _ => i
  | .player i _ _ _ => i

/-- The node's children (`GetChild` targets). -/
def kidsOf : GameTree → List GameTree
  | .terminal _ _ => []
  | .chance _ cs => cs
  | .player _ _ _ cs => cs

/-- `node.NumChildren()`. -/
def numChildrenOf (t : GameTree) : Nat := (kidsOf t).length

/-- `node.Player()` (player nodes; elsewhere the game contract forbids the
call, we return 0). -/
def playerOf : GameTree → Nat
  | .player _ p _ _ => p
  | _ => 0

/-- `node.InfoSet(node.Player()).Key()` (player nodes; elsewhere the game
contract forbids the call, we return the empty key). -/
def infoKeyOf : GameTree → String
  | .player _ _ k _ => k
  | _ => ""

/-- Events recorded during a traversal: `Close` calls on nodes,
`AddRegret(scale, regrets)` (robust engine, `NodePolicy` interface),
`AddRegret(reachP, counterfactualP, advantages)` (chance-sampling engine,
`NodeStrategy` interface), and `AddStrategyWeight(w)` calls. -/
inductive Event where
  | close (id : Nat)
  | addRegret (key : String) (scale : ℚ) (regrets : List ℚ)
  | addRegret2 (id : Nat) (reachP : ℚ) (counterFactualP : ℚ) (advantages : List ℚ)
  | addStrategyWeight (key : String) (w : ℚ)
deriving DecidableEq

/-- The per-traversal map of sampled opponent actions
(`sampledActions map[string]int`), as an association list. -/
abbrev Cache := List (String × Nat)

/-- Result of the robust-sampling evaluator: counterfactual value, updated
sampled-action cache, event trace. -/
abbrev Res := ℚ × Cache × List Event

/-- The random draws a traversal consumes, indexed by the id of the node at
which they are drawn: the permutation produced by `rand.Shuffle` on
`arange(n)` at a traversing-player node, the child index sampled by
`SampleChild` at a chance node, the uniform variate consumed by `sampleOne`
at an opponent node, and the (unspecified) contents of the scratch buffer
returned by the slice pool at a player node. -/
structure Oracle where
  shuffle : Nat → List Nat
  chanceChoice : Nat → Nat
  actionDraw : Nat → ℚ
  allocInit : Nat → List ℚ

/-- `arange(n)`: the list `[0, 1, ..., n-1]`. -/
def arange (n : Nat) : List Nat := List.range n

/-- Modelled from the spec: `getSign(lastPlayer, player)` (its definition is
not under src/) returns 1 when the two players coincide and -1 otherwise
("return expectedValue negated or not according to whether lastActingPlayer
differs from the current acting player"). -/
def getSign (lastPlayer player : Nat) : ℚ := if lastPlayer = player then 1 else -1

/-- List indexing with default 0, embedding Go slice indexing
(all uses are in range in the source). -/
def get0 (xs : List ℚ) (i : Nat) : ℚ := xs.getD i 0

/-- Modelled from the spec: `f32.AddConst(c, xs)` (internal/f32, not under
src/) adds the constant `c` to every element of the slice. -/
def addConst (c : ℚ) (xs : List ℚ) : List ℚ := xs.map (fun x => x + c)

/-- Modelled from the spec: the slice pool's `alloc(n)` returns a buffer of
`n` usable slots whose content is unspecified (must be treated as
uninitialized by the caller); the oracle supplies the content, padded or
truncated to length `n`. -/
def allocBuf (init : List ℚ) (n : Nat) : List ℚ :=
  (init ++ List.replicate n 0).take n

/-- Modelled from the spec: `sampleOne(strategy)` samples an action index
according to the current strategy by inverse-CDF sampling with a uniform
variate `r`. -/
def sampleOne : List ℚ → ℚ → Nat
  | [], _ => 0
  | p :: rest, r => if r < p then 0 else sampleOne rest (r - p) + 1

/-- `RobustSamplingCFR.handleChanceNode`: sample one child and recurse; the
chance sampling probability is not applied (it cancels in the
counterfactual-value calculation). -/
def handleChanceNode (o : Oracle) (recur : GameTree → Nat → ℚ → Nat → Cache → Res)
    (id : Nat) (cs : List GameTree) (lastPlayer : Nat) (sampleProb : ℚ)
    (traversingPlayer : Nat) (sampled : Cache) : Res :=
  if h : o.chanceChoice id < cs.length then
    recur (cs.get ⟨o.chanceChoice id, h⟩) lastPlayer sampleProb traversingPlayer sampled
  else (0, sampled, [])

/-- The `for _, i := range selected` loop of
`RobustSamplingCFR.handleTraversingPlayerNode`: recurse into each selected
child with probability `q * sampleProb`, store the returned utility in
`regrets[i]`, and accumulate `cfValue += strategy[i] * util`. -/
def traverseLoop (recur : GameTree → Nat → ℚ → Nat → Cache → Res)
    (cs : List GameTree) (player : Nat) (strategy : List ℚ) (q sampleProb : ℚ)
    (traversingPlayer : Nat) :
    List Nat → List ℚ → ℚ → Cache → List ℚ × ℚ × Cache × List Event
  | [], regrets, cfValue, sampled => (regrets, cfValue, sampled, [])
  | i :: rest, regrets, cfValue, sampled =>
    if h : i < cs.length then
      let ru := recur (cs.get ⟨i, h⟩) player (q * sampleProb) traversingPlayer sampled
      let r := traverseLoop recur cs player strategy q sampleProb traversingPlayer rest
        (regrets.set i ru.1) (cfValue + get0 strategy i * ru.1) ru.2.1
      (r.1, r.2.1, r.2.2.1, ru.2.2 ++ r.2.2.2)
    else
      traverseLoop recur cs player strategy q sampleProb traversingPlayer rest
        regrets cfValue sampled

/-- `RobustSamplingCFR.handleTraversingPlayerNode`: sample
`min(k, numChildren)` actions without replacement (shuffle-and-take; the
oracle supplies the shuffled permutation of `arange(n)`), recurse into each
with probability scaled by `q = 1/numChildren`, convert utilities to
instantaneous regrets by subtracting the expected utility, and call
`policy.AddRegret(1/q, regrets)`. -/
def handleTraversingPlayerNode (o : Oracle) (prof : String → List ℚ) (k : Nat)
    (recur : GameTree → Nat → ℚ → Nat → Cache → Res)
    (id p : Nat) (key : String) (cs : List GameTree) (sampleProb : ℚ)
    (traversingPlayer : Nat) (sampled : Cache) : Res :=
  let nChildren := cs.length
  let strategy := prof key
  let selected := if k < nChildren then (o.shuffle id).take k else arange nChildren
  let q : ℚ := 1 / (nChildren : ℚ)
  let regrets := allocBuf (o.allocInit id) nChildren
  let r := traverseLoop recur cs p strategy q sampleProb traversingPlayer selected regrets 0 sampled
  let regrets2 := addConst (- r.2.1) r.1
  (r.2.1, r.2.2.1, r.2.2.2 ++ [Event.addRegret key (1 / q) regrets2])

/-- `RobustSamplingCFR.handleSampledPlayerNode`: look the infoset key up in
the per-traversal cache, sampling and caching an action on a miss; call
`policy.AddStrategyWeight(1/sampleProb)`; recurse into the chosen child with
the sampling probability unchanged. -/
def handleSampledPlayerNode (o : Oracle) (prof : String → List ℚ)
    (recur : GameTree → Nat → ℚ → Nat → Cache → Res)
    (id p : Nat) (key : String) (cs : List GameTree) (sampleProb : ℚ)
    (traversingPlayer : Nat) (sampled : Cache) : Res :=
  let strategy := prof key
  let is :=
    match List.lookup key sampled with
    | some i => (i, sampled)
    | none =>
      let i := sampleOne strategy (o.actionDraw id)
      (i, (key, i) :: sampled)
  let r :=
    if h : is.1 < cs.length then
      recur (cs.get ⟨is.1, h⟩) p sampleProb traversingPlayer is.2
    else (0, is.2, [])
  (r.1, r.2.1, Event.addStrategyWeight key (1 / sampleProb) :: r.2.2)

/-- `RobustSamplingCFR.handlePlayerNode`: dispatch on whether the acting
player is the traversing player. -/
def handlePlayerNode (o : Oracle) (prof : String → List ℚ) (k : Nat)
    (recur : GameTree → Nat → ℚ → Nat → Cache → Res)
    (id p : Nat) (key : String) (cs : List GameTree) (sampleProb : ℚ)
    (traversingPlayer : Nat) (sampled : Cache) : Res :=
  if traversingPlayer = p then
    handleTraversingPlayerNode o prof k recur id p key cs sampleProb traversingPlayer sampled
  else
    handleSampledPlayerNode o prof recur id p key cs sampleProb traversingPlayer sampled

/-- `RobustSamplingCFR.runHelper`: terminal nodes return
`Utility(lastPlayer) / sampleProb`; chance and player nodes dispatch to
their handlers; every node is closed right after its value is computed.
`fuel` drives the recursion (fuel 0 is unreachable for adequate fuel and
returns a neutral result with no events). -/
def runHelperF (o : Oracle) (prof : String → List ℚ) (k : Nat) :
    Nat → GameTree → Nat → ℚ → Nat → Cache → Res
  | 0, _, _, _, _, sampled => (0, sampled, [])
  | fuel + 1, node, lastPlayer, sampleProb, traversingPlayer, sampled =>
    let recur := fun t lp sp tp s => runHelperF o prof k fuel t lp sp tp s
    match node with
    | .terminal id util => (util lastPlayer / sampleProb, sampled, [Event.close id])
    | .chance id cs =>
      let r := handleChanceNode o recur id cs lastPlayer sampleProb traversingPlayer sampled
      (r.1, r.2.1, r.2.2 ++ [Event.close id])
    | .player id p key cs =>
      let sgn := getSign lastPlayer p
      let r := handlePlayerNode o prof k recur id p key cs sampleProb traversingPlayer sampled
      (sgn * r.1, r.2.1, r.2.2 ++ [Event.close id])

/-! ### The chance-sampling engine (`ChanceSamplingCFR`) -/

/-- Result of the chance-sampling evaluator: expected utility and event
trace. -/
abbrev CSRes := ℚ × List Event

/-- Modelled from the spec: `reachProb(player, reachP0, reachP1,
reachChance)` (not under src/) is the acting player's own reach
probability. -/
def reachProb (player : Nat) (reachP0 reachP1 reachChance : ℚ) : ℚ :=
  if player = 0 then reachP0 * reachChance else reachP1 * reachChance

/-- Modelled from the spec: `counterFactualProb(player, reachP0, reachP1,
reachChance)` (not under src/) is the product of the reach probabilities
excluding the acting player's own ("the standard counterfactual reach
weighting"). -/
def counterFactualProb (player : Nat) (reachP0 reachP1 reachChance : ℚ) : ℚ :=
  if player = 0 then reachP1 * reachChance else reachP0 * reachChance

/-- The `for i := 0; i < node.NumChildren(); i++` loop of
`ChanceSamplingCFR.handlePlayerNode`: enumerate all children, scale the
acting player's own reach probability by `strat.GetActionProbability(i)`. -/
def csLoop (recur : GameTree → Nat → ℚ → ℚ → CSRes)
    (cs : List GameTree) (player : Nat) (strategy : List ℚ) (reachP0 reachP1 : ℚ) :
    List Nat → List ℚ → ℚ → List ℚ × ℚ × List Event
  | [], advantages, expectedUtil => (advantages, expectedUtil, [])
  | i :: rest, advantages, expectedUtil =>
    if h : i < cs.length then
      let p := get0 strategy i
      let ru :=
        if player = 0 then recur (cs.get ⟨i, h⟩) player (p * reachP0) reachP1
        else recur (cs.get ⟨i, h⟩) player reachP0 (p * reachP1)
      let r := csLoop recur cs player strategy reachP0 reachP1 rest
        (advantages.set i ru.1) (expectedUtil + p * ru.1)
      (r.1, r.2.1, ru.2 ++ r.2.2)
    else
      csLoop recur cs player strategy reachP0 reachP1 rest advantages expectedUtil

/-- `ChanceSamplingCFR.handlePlayerNode`: enumerate all children, convert
utilities to instantaneous advantages, and call
`strat.AddRegret(reachP, counterFactualP, advantages)`. -/
def csHandlePlayerNode (o : Oracle) (prof : String → List ℚ)
    (recur : GameTree → Nat → ℚ → ℚ → CSRes)
    (id p : Nat) (key : String) (cs : List GameTree) (reachP0 reachP1 : ℚ) : CSRes :=
  let strategy := prof key
  let advantages := allocBuf (o.allocInit id) cs.length
  let r := csLoop recur cs p strategy reachP0 reachP1 (arange cs.length) advantages 0
  let advantages2 := addConst (- r.2.1) r.1
  let reachPr := reachProb p reachP0 reachP1 1
  let counterFactualPr := counterFactualProb p reachP0 reachP1 1
  (r.2.1, r.2.2 ++ [Event.addRegret2 id reachPr counterFactualPr advantages2])

/-- `ChanceSamplingCFR.runHelper` (with `handleChanceNode` inlined: sample
one child, the sampling probability cancels and is not applied): terminal
nodes return `Utility(lastPlayer)` directly; every node is closed right
after its value is computed. -/
def csRunHelperF (o : Oracle) (prof : String → List ℚ) :
    Nat → GameTree → Nat → ℚ → ℚ → CSRes
  | 0, _, _, _, _ => (0, [])
  | fuel + 1, node, lastPlayer, reachP0, reachP1 =>
    let recur := fun t lp r0 r1 => csRunHelperF o prof fuel t lp r0 r1
    match node with
    | .terminal id util => (util lastPlayer, [Event.close id])
    | .chance id cs =>
      let r :=
        if h : o.chanceChoice id < cs.length then
          recur (cs.get ⟨o.chanceChoice id, h⟩) lastPlayer reachP0 reachP1
        else (0, [])
      (r.1, r.2 ++ [Event.close id])
    | .player id p key cs =>
      let sgn := getSign lastPlayer p
      let r := csHandlePlayerNode o prof recur id p key cs reachP0 reachP1
      (sgn * r.1, r.2 ++ [Event.close id])

/-! ### Policy and PolicyTable -/

/-- Modelled from the spec: `internal/policy.Policy` (not under src/) holds
the per-infoset cumulative regret vector `R` and cumulative strategy-weight
vector `S`. -/
structure Policy where
  regretSum : List ℚ
  strategySum : List ℚ
deriving DecidableEq

/-- `policy.NumActions()`: the action count of the policy. -/
def Policy.NumActions (p : Policy) : Nat := p.regretSum.length

/-- Modelled from the spec: `policy.New(n)` (not under src/) returns a fresh
policy sized to `n` actions with zero accumulated regret and strategy
weight. -/
def policyNew (n : Nat) : Policy :=
  { regretSum := List.replicate n 0, strategySum := List.replicate n 0 }

/-- Modelled from the spec: the current strategy by regret matching —
positive part of `R` normalized, or uniform when no action has positive
regret. -/
def getStrategy (p : Policy) : List ℚ :=
  let pos := p.regretSum.map (fun r => max r 0)
  let total := pos.sum
  if 0 < total then pos.map (fun r => r / total)
  else List.replicate p.regretSum.length (1 / (p.regretSum.length : ℚ))

/-- Modelled from the spec: `policy.NextStrategy(discountPos, discountNeg,
discountSum)` (not under src/) scales the non-negative and negative regret
components and the strategy sum by the discount factors. -/
def nextStrategy (discountPos discountNeg discountSum : ℚ) (p : Policy) : Policy :=
  { regretSum := p.regretSum.map (fun r => if 0 ≤ r then discountPos * r else discountNeg * r),
    strategySum := p.strategySum.map (fun s => discountSum * s) }

/-- Modelled from the spec: the pluggable discount schedule
(`DiscountParams.GetDiscountFactors`), a map from iteration number to the
three discount factors. -/
structure DiscountParams where
  factors : Nat → ℚ × ℚ × ℚ

/-- `PolicyTable`: the tabular strategy profile — discount parameters,
iteration counter, map of infoset key to policy, and the set of policies
touched since the last update (represented by their keys, since the table
holds one policy per key). -/
structure PolicyTable where
  params : DiscountParams
  iter : Nat
  policiesByKey : List (String × Policy)
  mayNeedUpdate : List String

/-- `NewPolicyTable`: iteration counter starts at 1 with no policies. -/
def NewPolicyTable (params : DiscountParams) : PolicyTable :=
  { params := params, iter := 1, policiesByKey := [], mayNeedUpdate := [] }

/-- `PolicyTable.Iter`. -/
def Iter (pt : PolicyTable) : Nat := pt.iter

/-- Map lookup `pt.policiesByKey[key]`. -/
def lookupPolicy : List (String × Policy) → String → Option Policy
  | [], _ => none
  | (k, p) :: rest, key => if key = k then some p else lookupPolicy rest key

/-- `PolicyTable.Update`: apply the discounted `NextStrategy` update to
every policy touched since the last update, clear the touched set, and
increment the iteration counter. -/
def ptUpdate (pt : PolicyTable) : PolicyTable :=
  let d := pt.params.factors pt.iter
  { pt with
    policiesByKey := pt.policiesByKey.map
      (fun kv => if kv.1 ∈ pt.mayNeedUpdate then (kv.1, nextStrategy d.1 d.2.1 d.2.2 kv.2) else kv),
    mayNeedUpdate := [],
    iter := pt.iter + 1 }

/-- `PolicyTable.GetPolicy`: look up the node's infoset key; create a fresh
policy sized to `node.NumChildren()` when absent; `panic` (modelled as
`Except.error`) when the stored action count disagrees with the node's
child count; mark the policy as touched. -/
def GetPolicy (pt : PolicyTable) (node : GameTree) : Except String (Policy × PolicyTable) :=
  let key := infoKeyOf node
  let found :=
    match lookupPolicy pt.policiesByKey key with
    | some np => (np, pt)
    | none =>
      let np := policyNew (numChildrenOf node)
      (np, { pt with policiesByKey := (key, np) :: pt.policiesByKey })
  if found.1.NumActions ≠ numChildrenOf node then
    .error ("strategy has n_actions != node n_children")
  else
    .ok (found.1, { found.2 with mayNeedUpdate := key :: found.2.mayNeedUpdate })

/-- Whether an `Except` value is the `error` case. -/
def isErr {ε α : Type _} : Except ε α → Bool
  | .error _ => true
  | .ok _ => false

/-- The strategy profile read by the traversal engines, as a pure map from
infoset key to current strategy. (The Go engines obtain it through
`strategyProfile.GetPolicy(node).GetStrategy()`; the traversal claims only
depend on the strategy values, so table bookkeeping is kept separate in
`GetPolicy` above.) -/
def stratOf (pt : PolicyTable) (key : String) : List ℚ :=
  match lookupPolicy pt.policiesByKey key with
  | some p => getStrategy p
  | none => []

/-- `RobustSamplingCFR.Run`: read the iteration counter, choose the
traversing player as `iter % 2`, create a fresh `sampledActions` cache, and
evaluate from the root. -/
def Run (o : Oracle) (k : Nat) (fuel : Nat) (pt : PolicyTable) (node : GameTree) : Res :=
  let iter := Iter pt
  let traversingPlayer := iter % 2
  runHelperF o (stratOf pt) k fuel node (playerOf node) 1 traversingPlayer []

/-! ### The persistent reservoir buffer (`ldbstore.ReservoirBuffer`)

The LevelDB store is modelled as an association list of
(key bytes, sample) pairs kept sorted by byte-lexicographic key order,
which is the iteration order of LevelDB's default comparer; `Put` is a
sorted upsert. The gob encoding of a sample round-trips to the sample
itself, so values are stored directly. -/

/-- Recursion worker for `uvarint` (the fuel argument only drives
termination; `n` itself is always sufficient fuel). -/
def uvarintAux : Nat → Nat → List Nat
  | 0, n => [n % 128]
  | fuel + 1, n => if n < 128 then [n] else (n % 128 + 128) :: uvarintAux fuel (n / 128)

/-- `binary.PutUvarint`: minimal-length base-128 varint, low 7-bit group
first, continuation bit (0x80) on every byte but the last. -/
def uvarint (n : Nat) : List Nat := uvarintAux n n

/-- Byte-lexicographic order on keys (LevelDB's default comparer: shorter
key first on a tie prefix). -/
def byteLexLt : List Nat → List Nat → Bool
  | [], [] => false
  | [], _ :: _ => true
  | _ :: _, [] => false
  | a :: as, b :: bs => if a < b then true else if b < a then false else byteLexLt as bs

/-- The backing store: key-to-value pairs in byte-lexicographic key order
(the order `NewIterator` scans). -/
abbrev DB (α : Type _) := List (List Nat × α)

/-- `db.Put(key, value)`: upsert preserving byte-lexicographic key order. -/
def dbPut {α : Type _} : DB α → List Nat → α → DB α
  | [], key, v => [(key, v)]
  | (k, w) :: rest, key, v =>
    if byteLexLt key k then (key, v) :: (k, w) :: rest
    else if key = k then (key, v) :: rest
    else (k, w) :: dbPut rest key v

/-- `db.Get(key)`. -/
def dbGet {α : Type _} : DB α → List Nat → Option α
  | [], _ => none
  | (k, w) :: rest, key => if key = k then some w else dbGet rest key

/-- The store invariant: keys strictly increasing in byte-lexicographic
order. -/
def dbSorted {α : Type _} (db : DB α) : Prop :=
  List.Pairwise (fun a b => byteLexLt a.1 b.1 = true) db

/-- The subset of `opt.Options` the code touches: the `ErrorIfMissing` open
mode plus an opaque stand-in for every other option. -/
structure Options where
  errorIfMissing : Bool
  other : Nat
deriving DecidableEq

/-- `ldbstore.ReservoirBuffer`: directory path, store options, capacity
`maxSize`, running count `n`, backing store. (The mutex and read/write
options are not modelled; `AddSample` below is a single atomic state
transition, which is what holding the lock for the whole
read-decide-write sequence guarantees.) -/
structure Buffer (α : Type _) where
  path : String
  opts : Options
  maxSize : Nat
  n : Nat
  db : DB α
deriving DecidableEq

/-- `NewReservoirBuffer`: a fresh buffer over a newly opened (empty)
store. -/
def NewReservoirBuffer (α : Type _) (path : String) (opts : Options) (maxSize : Nat) :
    Buffer α :=
  { path := path, opts := opts, maxSize := maxSize, n := 0, db := [] }

/-- `ReservoirBuffer.putSample`: store the gob-encoded sample under the
uvarint-encoded slot index. -/
def putSample {α : Type _} (db : DB α) (idx : Nat) (s : α) : DB α :=
  dbPut db (uvarint idx) s

/-- `ReservoirBuffer.AddSample`: increment `n`; while `n ≤ maxSize` store
at slot `n-1`; afterwards overwrite slot `m` exactly when the uniform draw
`m := rand.Intn(n)` (supplied explicitly) is below `maxSize`, else discard.
The whole step is one atomic state transition, as under the lock. -/
def AddSample {α : Type _} (b : Buffer α) (s : α) (m : Nat) : Buffer α :=
  let n2 := b.n + 1
  if n2 ≤ b.maxSize then { b with n := n2, db := putSample b.db (n2 - 1) s }
  else if m < b.maxSize then { b with n := n2, db := putSample b.db m s }
  else { b with n := n2 }

/-- A sequence of `AddSample` calls, each with its sample and its random
draw. -/
def addAll {α : Type _} (b : Buffer α) : List (α × Nat) → Buffer α
  | [] => b
  | (s, m) :: rest => addAll (AddSample b s m) rest

/-- `ReservoirBuffer.GetSamples`: scan the whole store in iteration
(byte-lexicographic key) order, decoding each value. -/
def GetSamples {α : Type _} (b : Buffer α) : List α := b.db.map Prod.snd

/-- The gob wire values the buffer metadata serializes to. -/
inductive GobField where
  | str (s : String)
  | options (o : Options)
  | num (n : Nat)
deriving DecidableEq

/-- `ReservoirBuffer.GobEncode`: path, store options, capacity, running
count, in order. -/
def GobEncode {α : Type _} (b : Buffer α) : List GobField :=
  [.str b.path, .options b.opts, .num b.maxSize, .num b.n]

/-- Modelled from the spec: `leveldb.OpenFile` (not under src/) against a
disk state `env` mapping existing store paths to their contents; with
`ErrorIfMissing` set it fails when the store does not exist, otherwise a
missing store is created empty. -/
def openFile {α : Type _} (env : String → Option (DB α)) (path : String)
    (opts : Options) : Except String (DB α) :=
  match env path with
  | some db => .ok db
  | none => if opts.errorIfMissing then .error ("leveldb: db missing") else .ok []

/-- `ReservoirBuffer.GobDecode`: decode path, options, capacity and count
in order (any mismatch is an error), set `ErrorIfMissing`, and reopen the
backing store, propagating an open failure. -/
def GobDecode {α : Type _} (env : String → Option (DB α)) (buf : List GobField) :
    Except String (Buffer α) :=
  match buf with
  | .str path :: .options opts :: .num maxSize :: .num n :: _ =>
    let opts2 := { opts with errorIfMissing := true }
    match openFile env path opts2 with
    | .ok db => .ok { path := path, opts := opts2, maxSize := maxSize, n := n, db := db }
    | .error e => .error e
  | _ => .error ("gob: cannot decode ReservoirBuffer metadata")

/-! ### Statement apparatus -/

/-- The ids of the `Close` calls recorded in a trace, in order. -/
def closes (t : List Event) : List Nat :=
  t.filterMap (fun e => match e with | .close i => some i | _ => none)

mutual

/-- All node ids of a tree, children first (postorder). -/
def treeIds : GameTree → List Nat
  | .terminal i _ => [i]
  | .chance i cs => treeIdsList cs ++ [i]
  | .player i _ _ cs => treeIdsList cs ++ [i]

/-- All node ids of a forest, in order. -/
def treeIdsList : List GameTree → List Nat
  | [] => []
  | c :: rest => treeIds c ++ treeIdsList rest

end

/-- The reference shape of the traversing-player loop: evaluate the
selected children in order, threading the sampled-action cache, and return
the list of child values together with the final cache and the
concatenated child traces. -/
def runChildrenSeq (recur : GameTree → Nat → ℚ → Nat → Cache → Res)
    (cs : List GameTree) (player : Nat) (prob : ℚ) (traversingPlayer : Nat) :
    List Nat → Cache → List ℚ × Cache × List Event
  | [], s => ([], s, [])
  | i :: rest, s =>
    if h : i < cs.length then
      let ru := recur (cs.get ⟨i, h⟩) player prob traversingPlayer s
      let r := runChildrenSeq recur cs player prob traversingPlayer rest ru.2.1
      (ru.1 :: r.1, r.2.1, ru.2.2 ++ r.2.2)
    else runChildrenSeq recur cs player prob traversingPlayer rest s

/-- Write the values `us` into `xs` at the positions `is`, in lockstep. -/
def setMany : List ℚ → List Nat → List ℚ → List ℚ
  | xs, i :: is2, u :: us => setMany (xs.set i u) is2 us
  | xs, _, _ => xs

/-- The strategy-weighted sum `Σ strategy[i] * u` over positions `is` and
values `us`, in lockstep. -/
def dotS (strategy : List ℚ) : List Nat → List ℚ → ℚ
  | i :: is2, u :: us => get0 strategy i * u + dotS strategy is2 us
  | _, _ => 0

/-! ### Concrete instances for witnesses and counterexamples -/

/-- A deterministic oracle for concrete evaluations: shuffle leaves
`arange` unpermuted, chance picks child 0, the action draw is 0, the pool
hands out zeroed buffers. -/
def oracle0 : Oracle :=
  { shuffle := fun _ => [0, 1],
    chanceChoice := fun _ => 0,
    actionDraw := fun _ => 0,
    allocInit := fun _ => [0, 0] }

/-- A second oracle differing only in the opponent-action draw. -/
def oracle1 : Oracle :=
  { oracle0 with actionDraw := fun _ => 1 / 2 }

/-- A constant uniform two-action strategy profile. -/
def prof2 : String → List ℚ := fun _ => [1 / 2, 1 / 2]

/-- A two-leaf traversing-player game: player 0 to act, utilities 2 and
100. -/
def csLeaves : List GameTree :=
  [.terminal 1 (fun _ => 2), .terminal 2 (fun _ => 100)]

/-- The two-leaf game rooted at a player-0 node. -/
def game0 : GameTree := .player 0 0 "I" csLeaves

/-- The two-leaf game rooted at a player-1 (opponent when the traversing
player is 0) node. -/
def game1 : GameTree := .player 0 1 "K" csLeaves

/-- A policy table holding the key of `game1` with a fresh two-action
policy, at iteration 2 (so the traversing player is 0). -/
def ptK : PolicyTable :=
  { params := { factors := fun _ => (1, 1, 1) },
    iter := 2,
    policiesByKey := [("K", policyNew 2)],
    mayNeedUpdate := [] }

/-- A concrete reservoir buffer used by witnesses. -/
def bufW : Buffer Nat :=
  { path := "w", opts := { errorIfMissing := false, other := 0 }, maxSize := 2, n := 0, db := [] }

/-- A concrete buffer whose serialized options have `ErrorIfMissing`
unset. -/
def bufC8 : Buffer Nat :=
  { path := "db", opts := { errorIfMissing := false, other := 3 }, maxSize := 5, n := 4,
    db := [] }

/-- A disk state on which `bufC8.path` exists with one stored slot. -/
def envC8 : String → Option (DB Nat) :=
  fun p => if p = "db" then some [(uvarint 0, 7)] else none

/-- A full 257-slot reservoir store holding samples at slots 129 and 256
(reachable by 257 insertions at capacity 257; only the two slots relevant
to iteration order are populated here). -/
def bufBig : Buffer Nat :=
  { path := "big", opts := { errorIfMissing := false, other := 0 }, maxSize := 257, n := 257,
    db := putSample (putSample [] 129 10) 256 20 }

/-- The reservoir-buffer state invariant: store sorted in iteration order,
exactly `min n maxSize` slots occupied, and the occupied slot indices are
exactly `0 .. min n maxSize - 1`. -/
def resInv {α : Type _} (b : Buffer α) : Prop :=
  dbSorted b.db ∧ b.db.length = min b.n b.maxSize ∧
    ∀ j : Nat, (dbGet b.db (uvarint j)).isSome ↔ j < min b.n b.maxSize

/-- A recursive evaluator preserves cache entries: anything cached before a
call is still cached, with the same value, after it. -/
def CacheMono (f : GameTree → Nat → ℚ → Nat → Cache → Res) : Prop :=
  ∀ t lp sp tp s key v,
    List.lookup key s = some v → List.lookup key (f t lp sp tp s).2.1 = some v

/-- Child access with a default (used only to phrase index-summed counting
bounds; in-range positions agree with `GetChild`). -/
def nthChild (cs : List GameTree) (i : Nat) : GameTree :=
  cs.getD i (.terminal 0 (fun _ => 0))

/-! ## Theorems

First the generic store and encoding lemmas, then the per-claim theorems. -/

theorem uvarintAux_adequate : ∀ f g n : Nat, n ≤ f → n ≤ g → uvarintAux f n = uvarintAux g n := by
  intro f
  induction f with
  | zero =>
    intro g n hf _
    interval_cases n
    cases g with
    | zero => rfl
    | succ g => simp [uvarintAux]
  | succ f ih =>
    intro g n hf hg
    cases g with
    | zero =>
      interval_cases n
      simp [uvarintAux]
    | succ g =>
      simp only [uvarintAux]
      by_cases h : n < 128
      · simp [h]
      · have hn : 0 < n := by omega
        have hdiv : n / 128 < n := Nat.div_lt_self hn (by omega)
        simp only [h, if_false]
        have := ih g (n / 128) (by omega) (by omega)
        rw [this]

theorem uvarint_eq (n : Nat) :
    uvarint n = if n < 128 then [n] else (n % 128 + 128) :: uvarint (n / 128) := by
  unfold uvarint
  by_cases h : n < 128
  · rw [uvarintAux_adequate n (n + 1) n (le_refl n) (by omega)]
    simp [uvarintAux, h]
  · rw [uvarintAux_adequate n (n + 1) n (le_refl n) (by omega)]
    have hn : 0 < n := by omega
    have hdiv : n / 128 < n := Nat.div_lt_self hn (by omega)
    simp only [uvarintAux, h, if_false]
    rw [uvarintAux_adequate n (n / 128) (n / 128) (by omega) (le_refl _)]

theorem uvarint_inj : ∀ m n : Nat, uvarint m = uvarint n → m = n := by
  intro m
  induction m using Nat.strong_induction_on with
  | _ m ih =>
    intro n h
    rw [uvarint_eq m, uvarint_eq n] at h
    by_cases hm : m < 128 <;> by_cases hn : n < 128
    · simpa [hm, hn] using h
    · simp only [hm, hn, if_true, if_false] at h
      have := List.head_eq_of_cons_eq h
      omega
    · simp only [hm, hn, if_true, if_false] at h
      have := List.head_eq_of_cons_eq h
      omega
    · simp only [hm, hn, if_false] at h
      have h1 := List.head_eq_of_cons_eq h
      have h2 := List.tail_eq_of_cons_eq h
      have hdiv : m / 128 < m := Nat.div_lt_self (by omega) (by omega)
      have := ih (m / 128) hdiv (n / 128) h2
      omega

theorem byteLexLt_irrefl : ∀ a, byteLexLt a a = false := by
  intro a
  induction a with
  | nil => rfl
  | cons x as ih => simp [byteLexLt, ih]

theorem byteLexLt_trans :
    ∀ a b c, byteLexLt a b = true → byteLexLt b c = true → byteLexLt a c = true := by
  intro a
  induction a with
  | nil =>
    intro b c hab hbc
    cases b with
    | nil => simp [byteLexLt] at hab
    | cons y bs =>
      cases c with
      | nil => simp [byteLexLt] at hbc
      | cons z cs => simp [byteLexLt]
  | cons x as ih =>
    intro b c hab hbc
    cases b with
    | nil => simp [byteLexLt] at hab
    | cons y bs =>
      cases c with
      | nil => simp [byteLexLt] at hbc
      | cons z cs =>
        simp only [byteLexLt] at hab hbc ⊢
        split_ifs at hab with h1 h2
        · split_ifs at hbc with h3 h4
          · simp [show x < z by omega]
          · simp [show x < z by omega]
        · split_ifs at hbc with h3 h4
          · simp [show x < z by omega]
          · have hxz : ¬ x < z := by omega
            have hzx : ¬ z < x := by omega
            simp [hxz, hzx, ih bs cs hab hbc]

theorem byteLexLt_total :
    ∀ a b, a = b ∨ byteLexLt a b = true ∨ byteLexLt b a = true := by
  intro a
  induction a with
  | nil =>
    intro b
    cases b with
    | nil => left; rfl
    | cons y bs => right; left; rfl
  | cons x as ih =>
    intro b
    cases b with
    | nil => right; right; rfl
    | cons y bs =>
      rcases Nat.lt_trichotomy x y with hxy | hxy | hxy
      · right; left; simp [byteLexLt, hxy]
      · subst hxy
        rcases ih bs with h | h | h
        · left; rw [h]
        · right; left; simp [byteLexLt, h]
        · right; right; simp [byteLexLt, h]
      · right; right; simp [byteLexLt, hxy, Nat.lt_asymm hxy]

theorem dbGet_dbPut_same {α : Type _} :
    ∀ (db : DB α) key v, dbGet (dbPut db key v) key = some v := by
  intro db
  induction db with
  | nil => intro key v; simp [dbPut, dbGet]
  | cons kw rest ih =>
    intro key v
    obtain ⟨k, w⟩ := kw
    simp only [dbPut]
    split_ifs with h1 h2
    · simp [dbGet]
    · simp [dbGet]
    · simp [dbGet, h2, ih]

theorem dbGet_dbPut_other {α : Type _} :
    ∀ (db : DB α) key key2 v, key2 ≠ key → dbGet (dbPut db key v) key2 = dbGet db key2 := by
  intro db
  induction db with
  | nil => intro key key2 v h; simp [dbPut, dbGet, h]
  | cons kw rest ih =>
    intro key key2 v h
    obtain ⟨k, w⟩ := kw
    simp only [dbPut]
    split_ifs with h1 h2
    · simp [dbGet, h]
    · subst h2; simp [dbGet, h]
    · simp only [dbGet]
      split_ifs with h3
      · rfl
      · exact ih key key2 v h

theorem dbGet_none_of_lt_all {α : Type _} :
    ∀ (db : DB α) key, (∀ x ∈ db, byteLexLt key x.1 = true) → dbGet db key = none := by
  intro db
  induction db with
  | nil => intro key _; rfl
  | cons kw rest ih =>
    intro key h
    obtain ⟨k, w⟩ := kw
    have hk : byteLexLt key k = true := h (k, w) (by simp)
    have hne : key ≠ k := by
      intro he
      rw [he] at hk
      rw [byteLexLt_irrefl] at hk
      exact absurd hk (by simp)
    simp only [dbGet, hne, if_false]
    exact ih key (fun x hx => h x (by simp [hx]))

theorem mem_dbPut {α : Type _} :
    ∀ (db : DB α) key v x, x ∈ dbPut db key v → x = (key, v) ∨ x ∈ db := by
  intro db
  induction db with
  | nil => intro key v x hx; simp [dbPut] at hx; left; exact hx
  | cons kw rest ih =>
    intro key v x hx
    obtain ⟨k, w⟩ := kw
    simp only [dbPut] at hx
    split_ifs at hx with h1 h2
    · rcases List.mem_cons.mp hx with h | h
      · left; exact h
      · right; exact h
    · rcases List.mem_cons.mp hx with h | h
      · left; rw [h, h2]
      · right; simp [h]
    · rcases List.mem_cons.mp hx with h | h
      · right; simp [h]
      · rcases ih key v x h with h3 | h3
        · left; exact h3
        · right; simp [h3]

theorem dbPut_sorted {α : Type _} :
    ∀ (db : DB α) key v, dbSorted db → dbSorted (dbPut db key v) := by
  intro db
  induction db with
  | nil => intro key v _; simp [dbPut, dbSorted]
  | cons kw rest ih =>
    intro key v hs
    obtain ⟨k, w⟩ := kw
    simp only [dbSorted, List.pairwise_cons] at hs
    obtain ⟨hk, hrest⟩ := hs
    simp only [dbPut]
    split_ifs with h1 h2
    · simp only [dbSorted, List.pairwise_cons]
      constructor
      · intro x hx
        rcases List.mem_cons.mp hx with h | h
        · rw [h]; exact h1
        · exact byteLexLt_trans key k x.1 h1 (hk x h)
      · exact ⟨hk, hrest⟩
    · simp only [dbSorted, List.pairwise_cons]
      subst h2
      exact ⟨hk, hrest⟩
    · simp only [dbSorted, List.pairwise_cons]
      constructor
      · intro x hx
        rcases mem_dbPut rest key v x hx with h | h
        · rw [h]
          rcases byteLexLt_total key k with h3 | h3 | h3
          · exact absurd h3 h2
          · exact absurd h3 (by simp [h1])
          · exact h3
        · exact hk x h
      · exact ih key v hrest

theorem dbPut_length_new {α : Type _} :
    ∀ (db : DB α) key v, dbGet db key = none → (dbPut db key v).length = db.length + 1 := by
  intro db
  induction db with
  | nil => intro key v _; rfl
  | cons kw rest ih =>
    intro key v h
    obtain ⟨k, w⟩ := kw
    simp only [dbGet] at h
    split_ifs at h with h0
    simp only [dbPut]
    split_ifs with h1
    · simp
    · simp [ih key v h]

/-- C2: `AddSample(s)` with capacity `C` and running count `n` increments
the count to `n+1`; if `n+1 ≤ C` it stores `s` at slot `n` (index `n`,
the `(n+1)`-th slot); otherwise, with the uniform draw `m` in `[0, n+1)`,
`s` overwrites slot `m` exactly when `m < C` and is discarded otherwise.
The step is a single atomic state transition (the lock's guarantee). -/
theorem claim_C2_addSample {α : Type _} (b : Buffer α) (s : α) (m : Nat)
    (hm : m < b.n + 1) :
    (AddSample b s m).n = b.n + 1
    ∧ (b.n + 1 ≤ b.maxSize → (AddSample b s m).db = putSample b.db b.n s)
    ∧ (b.maxSize < b.n + 1 → m < b.maxSize → (AddSample b s m).db = putSample b.db m s)
    ∧ (b.maxSize < b.n + 1 → ¬ m < b.maxSize → (AddSample b s m).db = b.db)
    ∧ ∀ j : Nat, dbGet (AddSample b s m).db (uvarint j) =
        if (b.n + 1 ≤ b.maxSize ∧ j = b.n) ∨ (b.maxSize < b.n + 1 ∧ m < b.maxSize ∧ j = m)
        then some s else dbGet b.db (uvarint j) := by
  by_cases hc : b.n + 1 ≤ b.maxSize
  · have hdb : (AddSample b s m).db = dbPut b.db (uvarint b.n) s := by
      simp [AddSample, hc, putSample]
    refine ⟨by simp [AddSample, hc], fun _ => by simp [AddSample, hc, putSample],
      fun h _ => absurd hc (by omega), fun h _ => absurd hc (by omega), ?_⟩
    intro j
    rw [hdb]
    by_cases hj : j = b.n
    · subst hj
      rw [dbGet_dbPut_same, if_pos (Or.inl ⟨hc, rfl⟩)]
    · rw [dbGet_dbPut_other _ _ _ _ (fun he => hj (uvarint_inj j b.n he)), if_neg (by omega)]
  · by_cases hmC : m < b.maxSize
    · have hdb : (AddSample b s m).db = dbPut b.db (uvarint m) s := by
        simp [AddSample, hc, hmC, putSample]
      refine ⟨by simp [AddSample, hc, hmC], fun h => absurd h hc, fun _ _ => hdb,
        fun _ h => absurd hmC h, ?_⟩
      intro j
      rw [hdb]
      by_cases hj : j = m
      · subst hj
        rw [dbGet_dbPut_same, if_pos (Or.inr ⟨by omega, hmC, rfl⟩)]
      · rw [dbGet_dbPut_other _ _ _ _ (fun he => hj (uvarint_inj j m he)), if_neg (by omega)]
    · have hdb : (AddSample b s m).db = b.db := by
        simp [AddSample, hc, hmC]
      refine ⟨by simp [AddSample, hc, hmC], fun h => absurd h hc, fun _ h => absurd h hmC,
        fun _ _ => hdb, ?_⟩
      intro j
      rw [hdb, if_neg (by omega)]

/-- Witness for C2 at a concrete buffer, sample and draw. -/
theorem claim_C2_addSample_witness :
    (0 < bufW.n + 1) ∧ (AddSample bufW 5 0).n = bufW.n + 1 :=
  ⟨by decide, (claim_C2_addSample bufW 5 0 (by decide)).1⟩

theorem dbPut_length_old {α : Type _} :
    ∀ (db : DB α) key v, dbSorted db → (dbGet db key).isSome →
      (dbPut db key v).length = db.length := by
  intro db
  induction db with
  | nil => intro key v _ h; simp [dbGet] at h
  | cons kw rest ih =>
    intro key v hs h
    obtain ⟨k, w⟩ := kw
    simp only [dbSorted, List.pairwise_cons] at hs
    obtain ⟨hk, hrest⟩ := hs
    simp only [dbPut]
    split_ifs with h1 h2
    · exfalso
      have hnone : dbGet ((k, w) :: rest) key = none := by
        apply dbGet_none_of_lt_all
        intro x hx
        rcases List.mem_cons.mp hx with h3 | h3
        · rw [h3]; exact h1
        · exact byteLexLt_trans key k x.1 h1 (hk x h3)
      rw [hnone] at h
      simp at h
    · simp
    · simp only [dbGet, h2, if_false] at h
      simp [ih key v hrest h]

/-- C7 (amended): `getSamples` scans the store in byte-lexicographic key
order (the order `dbPut` maintains); for slot indices below 128 the uvarint
keys compare exactly as the slot numbers, so the scan is in slot-index
order, but not in general beyond 128. -/
theorem claim_C7_getSamples_order {α : Type _} (db : DB α) (key : List Nat) (v : α) :
    (dbSorted db → dbSorted (dbPut db key v))
    ∧ (∀ i j : Nat, i < 128 → j < 128 → (byteLexLt (uvarint i) (uvarint j) = true ↔ i < j))
    ∧ (∀ b : Buffer α, GetSamples b = b.db.map Prod.snd) := by
  refine ⟨dbPut_sorted db key v, ?_, fun b => rfl⟩
  intro i j hi hj
  rw [uvarint_eq i, uvarint_eq j]
  simp only [hi, hj, if_true]
  simp only [byteLexLt]
  split_ifs with h1 h2
  · simp [h1]
  · simp; omega
  · simp; omega

/-- C7 counterexample: with slots 129 and 256 both stored (as in a full
257-capacity reservoir), the scan returns the slot-256 sample before the
slot-129 sample, not in slot-index order. -/
theorem claim_C7_counterexample :
    GetSamples bufBig = [20, 10] ∧ [20, 10] ≠ [10, 20] ∧ (129 : Nat) < 256 := by decide

/-- Witness for C7 at a concrete sorted store and pair of small slots. -/
theorem claim_C7_witness :
    dbSorted (dbPut ([] : DB Nat) (uvarint 3) 5) ∧
      (byteLexLt (uvarint 1) (uvarint 2) = true ↔ (1 : Nat) < 2) :=
  ⟨(claim_C7_getSamples_order ([] : DB Nat) (uvarint 3) 5).1 (by constructor),
   (claim_C7_getSamples_order ([] : DB Nat) (uvarint 3) 5).2.1 1 2 (by omega) (by omega)⟩

/-- C8 (amended): decoding the serialized metadata restores the path,
capacity and running count exactly; the store options are restored except
that `ErrorIfMissing` is forced on, so the reopen fails exactly when the
store does not already exist; a decode failure (malformed metadata) or an
open failure returns an error. -/
theorem claim_C8_gobDecode {α : Type _} (b : Buffer α) (env : String → Option (DB α))
    (db0 : DB α) :
    (env b.path = some db0 →
      GobDecode env (GobEncode b) =
        .ok { path := b.path, opts := { b.opts with errorIfMissing := true },
              maxSize := b.maxSize, n := b.n, db := db0 })
    ∧ (env b.path = none → isErr (GobDecode env (GobEncode b)) = true)
    ∧ isErr (GobDecode env ([] : List GobField)) = true := by
  refine ⟨?_, ?_, rfl⟩
  · intro h
    simp [GobDecode, GobEncode, openFile, h]
  · intro h
    simp [GobDecode, GobEncode, openFile, h, isErr]

/-- C8 counterexample: the decoded store options are not exactly the
serialized ones — `ErrorIfMissing` comes back forced on even though it was
serialized off. -/
theorem claim_C8_counterexample :
    (GobDecode envC8 (GobEncode bufC8)).toOption =
      some { path := "db", opts := { errorIfMissing := true, other := 3 },
             maxSize := 5, n := 4, db := [(uvarint 0, 7)] }
    ∧ ({ errorIfMissing := true, other := 3 } : Options) ≠ bufC8.opts := by decide

/-- Witness for C8 at a concrete buffer and disk state. -/
theorem claim_C8_witness :
    (envC8 bufC8.path = some [(uvarint 0, 7)]) ∧
      GobDecode envC8 (GobEncode bufC8) =
        .ok { path := bufC8.path, opts := { bufC8.opts with errorIfMissing := true },
              maxSize := bufC8.maxSize, n := bufC8.n, db := [(uvarint 0, 7)] } :=
  ⟨by decide, (claim_C8_gobDecode bufC8 envC8 [(uvarint 0, 7)]).1 (by decide)⟩

/-- C10: `Run` picks the traversing player as the profile's iteration
counter modulo 2, and `Update` increments the counter by one, so successive
iterations alternate the traversing player. -/
theorem claim_C10_traversingPlayer (o : Oracle) (k fuel : Nat) (pt : PolicyTable)
    (node : GameTree) :
    Run o k fuel pt node =
      runHelperF o (stratOf pt) k fuel node (playerOf node) 1 (Iter pt % 2) []
    ∧ Iter (ptUpdate pt) = Iter pt + 1
    ∧ Iter (ptUpdate pt) % 2 ≠ Iter pt % 2 := by
  refine ⟨rfl, rfl, ?_⟩
  simp only [Iter, ptUpdate]
  omega

/-- C3: `GetPolicy` creates and stores a fresh policy sized to the node's
child count when the infoset key is absent; when present with a differing
action count it fails fatally instead of returning; in particular asking
for the same key with two different child counts makes the second call
fail. -/
theorem claim_C3_getPolicy (pt : PolicyTable) (node node2 : GameTree) :
    (lookupPolicy pt.policiesByKey (infoKeyOf node) = none →
      ∃ pt2, GetPolicy pt node = .ok (policyNew (numChildrenOf node), pt2) ∧
        lookupPolicy pt2.policiesByKey (infoKeyOf node) =
          some (policyNew (numChildrenOf node)))
    ∧ (∀ q, lookupPolicy pt.policiesByKey (infoKeyOf node) = some q →
        q.NumActions ≠ numChildrenOf node → isErr (GetPolicy pt node) = true)
    ∧ (∀ p pt2, GetPolicy pt node = .ok (p, pt2) → infoKeyOf node2 = infoKeyOf node →
        numChildrenOf node2 ≠ numChildrenOf node → isErr (GetPolicy pt2 node2) = true) := by
  refine ⟨?_, ?_, ?_⟩
  · intro h
    refine ⟨{ pt with
        policiesByKey := (infoKeyOf node, policyNew (numChildrenOf node)) :: pt.policiesByKey,
        mayNeedUpdate := infoKeyOf node :: pt.mayNeedUpdate }, ?_, ?_⟩
    · simp [GetPolicy, h, policyNew, Policy.NumActions]
    · simp [lookupPolicy]
  · intro q hq hne
    simp [GetPolicy, hq, hne, isErr]
  · intro p pt2 hok hkey hne
    have hpn : (policyNew (numChildrenOf node)).NumActions = numChildrenOf node := by
      simp [policyNew, Policy.NumActions]
    cases hl : lookupPolicy pt.policiesByKey (infoKeyOf node) with
    | none =>
      simp only [GetPolicy, hl] at hok
      rw [if_neg (by simp [hpn])] at hok
      have h2 := Except.ok.inj hok
      injection h2 with h3 h4
      subst h3
      subst h4
      have hne2 : (policyNew (numChildrenOf node)).NumActions ≠ numChildrenOf node2 := by
        rw [hpn]
        exact fun he => hne (he.symm)
      simp [GetPolicy, lookupPolicy, hkey, hne2, isErr]
    | some q =>
      simp only [GetPolicy, hl] at hok
      by_cases hq : q.NumActions ≠ numChildrenOf node
      · rw [if_pos hq] at hok
        exact absurd hok (by simp)
      · rw [if_neg hq] at hok
        have h2 := Except.ok.inj hok
        injection h2 with h3 h4
        subst h3
        subst h4
        have hqn : q.NumActions = numChildrenOf node := by
          by_contra hc
          exact hq hc
        have hne2 : q.NumActions ≠ numChildrenOf node2 := by
          rw [hqn]
          exact fun he => hne (he.symm)
        simp [GetPolicy, hkey, hl, hne2, isErr]

/-- Witness for C3: a fresh table, a two-child node, then the same key with
three children. -/
theorem claim_C3_getPolicy_witness :
    (lookupPolicy (NewPolicyTable { factors := fun _ => (1, 1, 1) }).policiesByKey
        (infoKeyOf game0) = none) ∧
      ∃ pt2, GetPolicy (NewPolicyTable { factors := fun _ => (1, 1, 1) }) game0 =
          .ok (policyNew (numChildrenOf game0), pt2) ∧
        lookupPolicy pt2.policiesByKey (infoKeyOf game0) =
          some (policyNew (numChildrenOf game0)) :=
  ⟨rfl, (claim_C3_getPolicy (NewPolicyTable { factors := fun _ => (1, 1, 1) })
    game0 game0).1 rfl⟩

theorem resInv_addSample {α : Type _} (b : Buffer α) (s : α) (m : Nat) (h : resInv b) :
    resInv (AddSample b s m) ∧ (AddSample b s m).n = b.n + 1
      ∧ (AddSample b s m).maxSize = b.maxSize := by
  obtain ⟨hsort, hlen, hchar⟩ := h
  by_cases hc : b.n + 1 ≤ b.maxSize
  · have hdb : (AddSample b s m).db = dbPut b.db (uvarint b.n) s := by
      simp [AddSample, hc, putSample]
    have hnone : dbGet b.db (uvarint b.n) = none := by
      have := hchar b.n
      rcases he : dbGet b.db (uvarint b.n) with _ | w
      · rfl
      · rw [he] at this
        simp at this
    refine ⟨⟨?_, ?_, ?_⟩, by simp [AddSample, hc], by simp [AddSample, hc]⟩
    · rw [hdb]
      exact dbPut_sorted b.db (uvarint b.n) s hsort
    · rw [hdb, dbPut_length_new b.db (uvarint b.n) s hnone, hlen]
      simp [AddSample, hc]
      omega
    · intro j
      rw [hdb]
      simp only [AddSample, hc, if_true]
      by_cases hj : j = b.n
      · subst hj
        rw [dbGet_dbPut_same]
        simp
        omega
      · rw [dbGet_dbPut_other _ _ _ _ (fun he => hj (uvarint_inj j b.n he))]
        rw [hchar j]
        omega
  · by_cases hmC : m < b.maxSize
    · have hdb : (AddSample b s m).db = dbPut b.db (uvarint m) s := by
        simp [AddSample, hc, hmC, putSample]
      have hsome : (dbGet b.db (uvarint m)).isSome := by
        rw [hchar m]
        omega
      refine ⟨⟨?_, ?_, ?_⟩, by simp [AddSample, hc, hmC], by simp [AddSample, hc, hmC]⟩
      · rw [hdb]
        exact dbPut_sorted b.db (uvarint m) s hsort
      · rw [hdb, dbPut_length_old b.db (uvarint m) s hsort hsome, hlen]
        simp [AddSample, hc, hmC]
        omega
      · intro j
        rw [hdb]
        simp only [AddSample, hc, hmC, if_true, if_false]
        by_cases hj : j = m
        · subst hj
          rw [dbGet_dbPut_same]
          simp
          omega
        · rw [dbGet_dbPut_other _ _ _ _ (fun he => hj (uvarint_inj j m he))]
          rw [hchar j]
          omega
    · have hdb : (AddSample b s m).db = b.db := by
        simp [AddSample, hc, hmC]
      refine ⟨⟨?_, ?_, ?_⟩, by simp [AddSample, hc, hmC], by simp [AddSample, hc, hmC]⟩
      · rw [hdb]
        exact hsort
      · rw [hdb, hlen]
        simp [AddSample, hc, hmC]
        omega
      · intro j
        rw [hdb, hchar j]
        simp [AddSample, hc, hmC]
        omega

theorem resInv_addAll {α : Type _} :
    ∀ (L : List (α × Nat)) (b : Buffer α), resInv b →
      resInv (addAll b L) ∧ (addAll b L).n = b.n + L.length
        ∧ (addAll b L).maxSize = b.maxSize := by
  intro L
  induction L with
  | nil => intro b h; exact ⟨h, by simp [addAll], rfl⟩
  | cons sm rest ih =>
    intro b h
    obtain ⟨s, m⟩ := sm
    obtain ⟨h1, h2, h3⟩ := resInv_addSample b s m h
    obtain ⟨h4, h5, h6⟩ := ih (AddSample b s m) h1
    refine ⟨h4, ?_, by rw [addAll, h6, h3]⟩
    rw [addAll, h5, h2]
    simp
    omega

theorem addAll_fill {α : Type _} :
    ∀ (L : List (α × Nat)) (b : Buffer α), resInv b → b.n + L.length ≤ b.maxSize →
      (∀ j (hj : j < L.length),
        dbGet (addAll b L).db (uvarint (b.n + j)) = some (L.get ⟨j, hj⟩).1)
      ∧ (∀ j, j < b.n → dbGet (addAll b L).db (uvarint j) = dbGet b.db (uvarint j)) := by
  intro L
  induction L with
  | nil =>
    intro b _ _
    exact ⟨fun j hj => absurd hj (by simp), fun j _ => by simp [addAll]⟩
  | cons sm rest ih =>
    intro b hinv hcap
    obtain ⟨s, m⟩ := sm
    have hc : b.n + 1 ≤ b.maxSize := by
      simp at hcap
      omega
    have hdb : (AddSample b s m).db = dbPut b.db (uvarint b.n) s := by
      simp [AddSample, hc, putSample]
    obtain ⟨hinv2, hn2, hms2⟩ := resInv_addSample b s m hinv
    have hcap2 : (AddSample b s m).n + rest.length ≤ (AddSample b s m).maxSize := by
      rw [hn2, hms2]
      simp at hcap
      omega
    obtain ⟨ha, hb⟩ := ih (AddSample b s m) hinv2 hcap2
    simp only [addAll]
    constructor
    · intro j hj
      cases j with
      | zero =>
        have := hb b.n (by omega)
        simp only [Nat.add_zero]
        rw [this, hdb, dbGet_dbPut_same]
        rfl
      | succ j2 =>
        have hj2 : j2 < rest.length := by
          simp at hj
          omega
        have := ha j2 hj2
        rw [hn2] at this
        rw [show b.n + (j2 + 1) = b.n + 1 + j2 by omega]
        rw [this]
        rfl
    · intro j hjn
      have := hb j (by omega)
      rw [this, hdb,
        dbGet_dbPut_other _ _ _ _ (fun he => (by omega : j ≠ b.n) (uvarint_inj j b.n he))]

/-- C6: starting from a fresh reservoir of capacity `C > 0`, after `N`
insertions `getSamples` returns exactly `min(N, C)` samples; when `N ≤ C`
every inserted sample sits in its insertion slot (none is lost); and no
sequence of insertions ever occupies more than `C` slots. -/
theorem claim_C6_reservoir {α : Type _} (C : Nat) (hC : 0 < C) (path : String)
    (opts : Options) (L : List (α × Nat)) :
    (GetSamples (addAll (NewReservoirBuffer α path opts C) L)).length = min L.length C
    ∧ (L.length ≤ C → ∀ j (hj : j < L.length),
        dbGet (addAll (NewReservoirBuffer α path opts C) L).db (uvarint j) =
          some (L.get ⟨j, hj⟩).1)
    ∧ ∀ L2 : List (α × Nat),
        (GetSamples (addAll (NewReservoirBuffer α path opts C) L2)).length ≤ C := by
  have hfresh : resInv (NewReservoirBuffer α path opts C) := by
    refine ⟨by simp [NewReservoirBuffer, dbSorted], by simp [NewReservoirBuffer], ?_⟩
    intro j
    simp [NewReservoirBuffer, dbGet]
  refine ⟨?_, ?_, ?_⟩
  · obtain ⟨hinv, hn, hms⟩ := resInv_addAll L _ hfresh
    have hlen := hinv.2.1
    simp only [GetSamples, List.length_map]
    rw [hlen, hn, hms]
    simp [NewReservoirBuffer]
  · intro hLC j hj
    have := (addAll_fill L (NewReservoirBuffer α path opts C) hfresh
      (by simp [NewReservoirBuffer]; omega)).1 j hj
    simpa [NewReservoirBuffer] using this
  · intro L2
    obtain ⟨hinv, hn, hms⟩ := resInv_addAll L2 _ hfresh
    have hlen := hinv.2.1
    simp only [GetSamples, List.length_map]
    rw [hlen, hms]
    simp only [NewReservoirBuffer]
    omega

/-- Witness for C6: capacity 2, three insertions. -/
theorem claim_C6_reservoir_witness :
    (0 < 2) ∧
      (GetSamples (addAll (NewReservoirBuffer Nat "w"
        { errorIfMissing := false, other := 0 } 2) [(10, 0), (20, 0), (30, 0)])).length =
        min 3 2 :=
  ⟨by decide, by
    have := (claim_C6_reservoir 2 (by decide) "w"
      { errorIfMissing := false, other := 0 } [(10, 0), (20, 0), (30, 0)]).1
    simpa using this⟩

theorem setMany_nil (xs utils : List ℚ) : setMany xs [] utils = xs := by
  cases utils <;> rfl

theorem dotS_nil (strategy : List ℚ) (utils : List ℚ) : dotS strategy [] utils = 0 := by
  cases utils <;> rfl

theorem setMany_length :
    ∀ (sel : List Nat) (utils xs : List ℚ), (setMany xs sel utils).length = xs.length := by
  intro sel
  induction sel with
  | nil => intro utils xs; rw [setMany_nil]
  | cons j rest ih =>
    intro utils xs
    cases utils with
    | nil => rfl
    | cons u us =>
      simp only [setMany]
      rw [ih us (xs.set j u)]
      simp

theorem get0_set_ne :
    ∀ (xs : List ℚ) (j : Nat) (u : ℚ) (i : Nat), i ≠ j → get0 (xs.set j u) i = get0 xs i := by
  intro xs
  induction xs with
  | nil => intro j u i _; simp [List.set]
  | cons x rest ih =>
    intro j u i h
    cases j with
    | zero =>
      cases i with
      | zero => exact absurd rfl h
      | succ i2 => simp [List.set, get0]
    | succ j2 =>
      cases i with
      | zero => simp [List.set, get0]
      | succ i2 =>
        simp only [List.set, get0, List.getD_cons_succ]
        exact ih j2 u i2 (fun he => h (by rw [he]))

theorem get0_setMany_not_mem :
    ∀ (sel : List Nat) (utils xs : List ℚ) (i : Nat), i ∉ sel →
      get0 (setMany xs sel utils) i = get0 xs i := by
  intro sel
  induction sel with
  | nil => intro utils xs i _; rw [setMany_nil]
  | cons j rest ih =>
    intro utils xs i hi
    simp only [List.mem_cons, not_or] at hi
    cases utils with
    | nil => rfl
    | cons u us =>
      simp only [setMany]
      rw [ih us (xs.set j u) i hi.2, get0_set_ne xs j u i hi.1]

theorem get0_addConst :
    ∀ (xs : List ℚ) (c : ℚ) (i : Nat), i < xs.length →
      get0 (addConst c xs) i = get0 xs i + c := by
  intro xs
  induction xs with
  | nil => intro c i h; simp at h
  | cons x rest ih =>
    intro c i h
    cases i with
    | zero => simp [addConst, get0]
    | succ i2 =>
      simp only [addConst, List.map_cons, get0, List.getD_cons_succ]
      exact ih c i2 (by simp at h; omega)

theorem allocBuf_length (init : List ℚ) (n : Nat) : (allocBuf init n).length = n := by
  simp [allocBuf]

theorem traverseLoop_eq (recur : GameTree → Nat → ℚ → Nat → Cache → Res)
    (cs : List GameTree) (player : Nat) (strategy : List ℚ) (q sp : ℚ) (tp : Nat) :
    ∀ (selected : List Nat) (regrets : List ℚ) (cf : ℚ) (s : Cache),
      (∀ i ∈ selected, i < cs.length) →
      traverseLoop recur cs player strategy q sp tp selected regrets cf s =
        (setMany regrets selected (runChildrenSeq recur cs player (q * sp) tp selected s).1,
         cf + dotS strategy selected (runChildrenSeq recur cs player (q * sp) tp selected s).1,
         (runChildrenSeq recur cs player (q * sp) tp selected s).2.1,
         (runChildrenSeq recur cs player (q * sp) tp selected s).2.2) := by
  intro selected
  induction selected with
  | nil => intro regrets cf s _; simp [traverseLoop, runChildrenSeq, setMany_nil, dotS_nil]
  | cons i rest ih =>
    intro regrets cf s hin
    have hi : i < cs.length := hin i (by simp)
    have hrest : ∀ j ∈ rest, j < cs.length := fun j hj => hin j (by simp [hj])
    simp only [traverseLoop, runChildrenSeq, dif_pos hi]
    rw [ih _ _ _ hrest]
    simp only [setMany, dotS]
    rw [add_assoc]

/-- C1 (amended): at a traversing-player node the engine samples
`min(k, numChildren)` distinct actions uniformly without replacement
(the take of the shuffled permutation), recurses into each with sampling
probability scaled by `q = 1/numChildren`, accumulates `cfValue` as the
strategy-weighted sum of the returned values, subtracts `cfValue` from
EVERY entry of the pool-allocated advantage buffer — so a sampled entry
carries `returnedValue - cfValue`, while an unsampled entry carries its
initial buffer content minus `cfValue` (for a zero-initialized buffer,
`-cfValue`), not exactly zero — then calls `addRegret` with scale `1/q`
and returns `cfValue`. -/
theorem claim_C1_traversingNode (o : Oracle) (prof : String → List ℚ) (k : Nat)
    (recur : GameTree → Nat → ℚ → Nat → Cache → Res)
    (id p : Nat) (key : String) (cs : List GameTree) (sp : ℚ) (tp : Nat) (s : Cache)
    (selected : List Nat) (buf utils : List ℚ) (cache2 : Cache) (tr : List Event)
    (hsh : (o.shuffle id).Perm (arange cs.length))
    (hselected : selected = if k < cs.length then (o.shuffle id).take k else arange cs.length)
    (hbuf : buf = allocBuf (o.allocInit id) cs.length)
    (hrun : runChildrenSeq recur cs p ((1 / (cs.length : ℚ)) * sp) tp selected s =
      (utils, cache2, tr)) :
    handleTraversingPlayerNode o prof k recur id p key cs sp tp s =
      (dotS (prof key) selected utils, cache2,
        tr ++ [Event.addRegret key (1 / (1 / (cs.length : ℚ)))
          (addConst (- dotS (prof key) selected utils) (setMany buf selected utils))])
    ∧ selected.length = min k cs.length
    ∧ selected.Nodup
    ∧ (∀ i ∈ selected, i < cs.length)
    ∧ (∀ i, i < cs.length → i ∉ selected →
        get0 (addConst (- dotS (prof key) selected utils) (setMany buf selected utils)) i =
          get0 buf i - dotS (prof key) selected utils) := by
  have hin : ∀ i ∈ selected, i < cs.length := by
    intro i hi
    rw [hselected] at hi
    by_cases hk : k < cs.length
    · rw [if_pos hk] at hi
      have h2 : i ∈ o.shuffle id := List.take_subset k (o.shuffle id) hi
      have h3 : i ∈ arange cs.length := hsh.mem_iff.mp h2
      simpa [arange] using h3
    · rw [if_neg hk] at hi
      simpa [arange] using hi
  have hlen : selected.length = min k cs.length := by
    rw [hselected]
    by_cases hk : k < cs.length
    · rw [if_pos hk]
      rw [List.length_take, hsh.length_eq]
      simp [arange]
    · rw [if_neg hk]
      simp [arange]
      omega
  have hnodup : selected.Nodup := by
    rw [hselected]
    by_cases hk : k < cs.length
    · rw [if_pos hk]
      exact ((hsh.nodup_iff).mpr (by simp [arange, List.nodup_range])).sublist
        (List.take_sublist k _)
    · rw [if_neg hk]
      simp [arange, List.nodup_range]
  refine ⟨?_, hlen, hnodup, hin, ?_⟩
  · simp only [handleTraversingPlayerNode, ← hselected, ← hbuf]
    rw [traverseLoop_eq recur cs p (prof key) (1 / (cs.length : ℚ)) sp tp selected buf 0 s hin]
    rw [hrun]
    simp
  · intro i hi hni
    rw [get0_addConst _ _ _ (by rw [setMany_length, hbuf, allocBuf_length]; exact hi)]
    rw [get0_setMany_not_mem _ _ _ _ hni]
    ring

/-- C1 counterexample: two children, `k = 1`, uniform strategy, zeroed pool
buffer; the sampled child returns 4, `cfValue = 2`, and the `addRegret`
call carries `-2`, not 0, at the unsampled index 1. -/
theorem claim_C1_counterexample :
    handleTraversingPlayerNode oracle0 prof2 1
        (fun t lp sp tp s => runHelperF oracle0 prof2 1 1 t lp sp tp s)
        0 0 "I" csLeaves 1 0 []
      = (2, [], [Event.close 1, Event.addRegret "I" 2 [2, -2]])
    ∧ get0 [2, -2] 1 ≠ 0 := by
  constructor
  · simp [handleTraversingPlayerNode, runHelperF, traverseLoop, csLeaves, oracle0, prof2,
      arange, allocBuf, get0, addConst, getSign, handleChanceNode, handlePlayerNode,
      handleSampledPlayerNode]
    norm_num
  · simp [get0]

/-- Witness for C1 at the concrete two-leaf game. -/
theorem claim_C1_traversingNode_witness :
    (oracle0.shuffle 0).Perm (arange csLeaves.length) ∧ [0].length = min 1 csLeaves.length :=
  ⟨by decide,
    (claim_C1_traversingNode oracle0 prof2 1
      (fun t lp sp tp s => runHelperF oracle0 prof2 1 1 t lp sp tp s)
      0 0 "I" csLeaves 1 0 [] [0] [0, 0] [4] [] [Event.close 1]
      (by decide) (by decide)
      (by norm_num [allocBuf, oracle0, csLeaves])
      (by simp [runChildrenSeq, runHelperF, csLeaves, oracle0, prof2]; norm_num)).2.1⟩

/-- C4: a Terminal node returns `Utility(lastPlayer) / sampleProb`; a
Chance node recurses into the sampled child with `sampleProb` unchanged; an
opponent (sampled-player) node recurses with `sampleProb` unchanged (both
on a cache hit and on a miss); only the traversing-player loop recurses
with `sampleProb` scaled, by `q = 1/numChildren`. -/
theorem claim_C4_terminalAndProbs (o : Oracle) (prof : String → List ℚ) (k fuel : Nat)
    (id lp tp p : Nat) (key : String) (util : Nat → ℚ) (cs : List GameTree) (sp : ℚ)
    (s : Cache) (recur : GameTree → Nat → ℚ → Nat → Cache → Res) :
    runHelperF o prof k (fuel + 1) (.terminal id util) lp sp tp s =
      (util lp / sp, s, [Event.close id])
    ∧ (∀ h : o.chanceChoice id < cs.length,
        runHelperF o prof k (fuel + 1) (.chance id cs) lp sp tp s =
          ((runHelperF o prof k fuel (cs.get ⟨o.chanceChoice id, h⟩) lp sp tp s).1,
           (runHelperF o prof k fuel (cs.get ⟨o.chanceChoice id, h⟩) lp sp tp s).2.1,
           (runHelperF o prof k fuel (cs.get ⟨o.chanceChoice id, h⟩) lp sp tp s).2.2 ++
             [Event.close id]))
    ∧ (∀ i, List.lookup key s = some i → ∀ h : i < cs.length,
        handleSampledPlayerNode o prof recur id p key cs sp tp s =
          ((recur (cs.get ⟨i, h⟩) p sp tp s).1,
           (recur (cs.get ⟨i, h⟩) p sp tp s).2.1,
           Event.addStrategyWeight key (1 / sp) ::
             (recur (cs.get ⟨i, h⟩) p sp tp s).2.2))
    ∧ (List.lookup key s = none →
        ∀ h : sampleOne (prof key) (o.actionDraw id) < cs.length,
        handleSampledPlayerNode o prof recur id p key cs sp tp s =
          ((recur (cs.get ⟨sampleOne (prof key) (o.actionDraw id), h⟩) p sp tp
              ((key, sampleOne (prof key) (o.actionDraw id)) :: s)).1,
           (recur (cs.get ⟨sampleOne (prof key) (o.actionDraw id), h⟩) p sp tp
              ((key, sampleOne (prof key) (o.actionDraw id)) :: s)).2.1,
           Event.addStrategyWeight key (1 / sp) ::
             (recur (cs.get ⟨sampleOne (prof key) (o.actionDraw id), h⟩) p sp tp
               ((key, sampleOne (prof key) (o.actionDraw id)) :: s)).2.2))
    ∧ (∀ selected regrets cf, (∀ i ∈ selected, i < cs.length) →
        traverseLoop recur cs p (prof key) (1 / (cs.length : ℚ)) sp tp selected regrets cf s =
          (setMany regrets selected
            (runChildrenSeq recur cs p ((1 / (cs.length : ℚ)) * sp) tp selected s).1,
           cf + dotS (prof key) selected
            (runChildrenSeq recur cs p ((1 / (cs.length : ℚ)) * sp) tp selected s).1,
           (runChildrenSeq recur cs p ((1 / (cs.length : ℚ)) * sp) tp selected s).2.1,
           (runChildrenSeq recur cs p ((1 / (cs.length : ℚ)) * sp) tp selected s).2.2)) := by
  refine ⟨rfl, ?_, ?_, ?_, ?_⟩
  · intro h
    simp [runHelperF, handleChanceNode, h]
  · intro i hi h
    simp [handleSampledPlayerNode, hi, h]
  · intro hmiss h
    simp [handleSampledPlayerNode, hmiss, h]
  · intro selected regrets cf hin
    exact traverseLoop_eq recur cs p (prof key) (1 / (cs.length : ℚ)) sp tp
      selected regrets cf s hin

/-- Witness for C4 at the concrete two-leaf game. -/
theorem claim_C4_terminalAndProbs_witness :
    (oracle0.chanceChoice 5 < csLeaves.length) ∧
      runHelperF oracle0 prof2 1 (1 + 1) (.chance 5 csLeaves) 0 1 0 [] =
        ((runHelperF oracle0 prof2 1 1 (csLeaves.get ⟨oracle0.chanceChoice 5,
            by decide⟩) 0 1 0 []).1,
         (runHelperF oracle0 prof2 1 1 (csLeaves.get ⟨oracle0.chanceChoice 5,
            by decide⟩) 0 1 0 []).2.1,
         (runHelperF oracle0 prof2 1 1 (csLeaves.get ⟨oracle0.chanceChoice 5,
            by decide⟩) 0 1 0 []).2.2 ++ [Event.close 5]) :=
  ⟨by decide,
    (claim_C4_terminalAndProbs oracle0 prof2 1 1 5 0 0 0 "I" (fun _ => 0) csLeaves 1 []
      (fun t lp sp tp s => runHelperF oracle0 prof2 1 1 t lp sp tp s)).2.1 (by decide)⟩

theorem traverseLoop_mono (recur : GameTree → Nat → ℚ → Nat → Cache → Res)
    (hrec : CacheMono recur) (cs : List GameTree) (player : Nat) (strategy : List ℚ)
    (q sp : ℚ) (tp : Nat) :
    ∀ (selected : List Nat) (regrets : List ℚ) (cf : ℚ) (s : Cache) (key : String) (v : Nat),
      List.lookup key s = some v →
      List.lookup key
        (traverseLoop recur cs player strategy q sp tp selected regrets cf s).2.2.1 = some v := by
  intro selected
  induction selected with
  | nil => intro regrets cf s key v hv; simpa [traverseLoop] using hv
  | cons i rest ih =>
    intro regrets cf s key v hv
    by_cases h : i < cs.length
    · simp only [traverseLoop, dif_pos h]
      exact ih _ _ _ key v (hrec _ _ _ _ _ key v hv)
    · simp only [traverseLoop, dif_neg h]
      exact ih _ _ _ key v hv

theorem handleSampled_mono (o : Oracle) (prof : String → List ℚ)
    (recur : GameTree → Nat → ℚ → Nat → Cache → Res) (hrec : CacheMono recur)
    (id p : Nat) (key2 : String) (cs : List GameTree) (sp : ℚ) (tp : Nat) (s : Cache)
    (key : String) (v : Nat) (hv : List.lookup key s = some v) :
    List.lookup key
      (handleSampledPlayerNode o prof recur id p key2 cs sp tp s).2.1 = some v := by
  simp only [handleSampledPlayerNode]
  cases hl : List.lookup key2 s with
  | some i =>
    simp only [hl]
    by_cases h : i < cs.length
    · simp only [dif_pos h]
      exact hrec _ _ _ _ _ key v hv
    · simpa [dif_neg h] using hv
  | none =>
    have hne : (key == key2) = false := by
      rcases he : key == key2 with _ | _
      · rfl
      · exfalso
        have : key = key2 := by
          have := he
          simpa [beq_iff_eq] using this
        rw [this] at hv
        rw [hv] at hl
        exact Option.noConfusion hl
    have hv2 : List.lookup key ((key2, sampleOne (prof key2) (o.actionDraw id)) :: s) =
        some v := by
      simp [List.lookup, hne, hv]
    simp only [hl]
    by_cases h : sampleOne (prof key2) (o.actionDraw id) < cs.length
    · simp only [dif_pos h]
      exact hrec _ _ _ _ _ key v hv2
    · simpa [dif_neg h] using hv2

theorem runHelperF_mono (o : Oracle) (prof : String → List ℚ) (k : Nat) :
    ∀ fuel : Nat, CacheMono (fun t lp sp tp s => runHelperF o prof k fuel t lp sp tp s) := by
  intro fuel
  induction fuel with
  | zero => intro t lp sp tp s key v hv; simpa [runHelperF] using hv
  | succ fuel ih =>
    intro t lp sp tp s key v hv
    cases t with
    | terminal id util => simpa [runHelperF] using hv
    | chance id cs =>
      simp only [runHelperF, handleChanceNode]
      by_cases h : o.chanceChoice id < cs.length
      · simp only [dif_pos h]
        exact ih _ _ _ _ _ key v hv
      · simpa [dif_neg h] using hv
    | player id p key2 cs =>
      simp only [runHelperF, handlePlayerNode]
      by_cases htp : tp = p
      · simp only [if_pos htp, handleTraversingPlayerNode]
        exact traverseLoop_mono _ ih cs p (prof key2) _ sp tp _ _ _ s key v hv
      · simp only [if_neg htp]
        exact handleSampled_mono o prof _ ih id p key2 cs sp tp s key v hv

/-- C5: within one `Run`, (i) a cached opponent action is never dropped or
changed by any recursive evaluation; (ii) a visit to an opponent infoset
whose key is cached uses the cached action, without consulting the sampler;
(iii) a first visit samples an action and caches it under the key;
(iv) `Run` starts from a fresh, empty cache; (v) two independent `Run`
calls may sample different actions for the same key (concrete instance:
the same table, two different draws, actions 0 and 1). -/
theorem claim_C5_actionCaching (o : Oracle) (prof : String → List ℚ) (k : Nat)
    (recur : GameTree → Nat → ℚ → Nat → Cache → Res)
    (id p : Nat) (key : String) (cs : List GameTree) (sp : ℚ) (tp : Nat) (s : Cache) :
    (∀ fuel t lp sp2 tp2 s2 key2 v, List.lookup key2 s2 = some v →
      List.lookup key2 (runHelperF o prof k fuel t lp sp2 tp2 s2).2.1 = some v)
    ∧ (∀ i, List.lookup key s = some i →
        handleSampledPlayerNode o prof recur id p key cs sp tp s =
          ((if h : i < cs.length then recur (cs.get ⟨i, h⟩) p sp tp s else (0, s, [])).1,
           (if h : i < cs.length then recur (cs.get ⟨i, h⟩) p sp tp s else (0, s, [])).2.1,
           Event.addStrategyWeight key (1 / sp) ::
             (if h : i < cs.length then recur (cs.get ⟨i, h⟩) p sp tp s else (0, s, [])).2.2))
    ∧ (∀ fuel, List.lookup key s = none →
        List.lookup key
          (handleSampledPlayerNode o prof
            (fun t lp sp2 tp2 s2 => runHelperF o prof k fuel t lp sp2 tp2 s2)
            id p key cs sp tp s).2.1 =
          some (sampleOne (prof key) (o.actionDraw id)))
    ∧ (∀ fuel (pt : PolicyTable) (node : GameTree),
        Run o k fuel pt node =
          runHelperF o (stratOf pt) k fuel node (playerOf node) 1 (Iter pt % 2) [])
    ∧ List.lookup "K" (Run oracle0 1 3 ptK game1).2.1 = some 0
    ∧ List.lookup "K" (Run oracle1 1 3 ptK game1).2.1 = some 1 := by
  refine ⟨?_, ?_, ?_, fun fuel pt node => rfl, ?_, ?_⟩
  · intro fuel t lp sp2 tp2 s2 key2 v hv
    exact runHelperF_mono o prof k fuel t lp sp2 tp2 s2 key2 v hv
  · intro i hi
    simp [handleSampledPlayerNode, hi]
  · intro fuel hmiss
    have hv2 : List.lookup key ((key, sampleOne (prof key) (o.actionDraw id)) :: s) =
        some (sampleOne (prof key) (o.actionDraw id)) := by
      simp [List.lookup]
    simp only [handleSampledPlayerNode, hmiss]
    by_cases h : sampleOne (prof key) (o.actionDraw id) < cs.length
    · simp only [dif_pos h]
      exact runHelperF_mono o prof k fuel _ _ _ _ _ _ _ hv2
    · simpa [dif_neg h] using hv2
  · simp [Run, runHelperF, Iter, ptK, stratOf, game1, playerOf, getSign,
      handlePlayerNode, handleSampledPlayerNode, handleChanceNode, lookupPolicy,
      getStrategy, policyNew, sampleOne, oracle0, csLeaves]
  · simp [Run, runHelperF, Iter, ptK, stratOf, game1, playerOf, getSign,
      handlePlayerNode, handleSampledPlayerNode, handleChanceNode, lookupPolicy,
      getStrategy, policyNew, sampleOne, oracle1, oracle0, csLeaves]

/-- Witness for C5: a pre-cached key is still cached, with the same action,
after a full evaluation. -/
theorem claim_C5_actionCaching_witness :
    (List.lookup "K" ([("K", 0)] : Cache) = some 0) ∧
      List.lookup "K" (runHelperF oracle0 prof2 1 2 game1 1 1 0 [("K", 0)]).2.1 = some 0 :=
  ⟨by decide,
    (claim_C5_actionCaching oracle0 prof2 1
        (fun t lp sp tp s => runHelperF oracle0 prof2 1 1 t lp sp tp s)
        0 1 "K" csLeaves 1 0 []).1 2 game1 1 1 0 [("K", 0)] "K" 0 (by decide)⟩

theorem closes_append (a b : List Event) : closes (a ++ b) = closes a ++ closes b := by
  simp [closes]

theorem sublist_sum_le : ∀ {l1 l2 : List Nat}, List.Sublist l1 l2 → l1.sum ≤ l2.sum := by
  intro l1 l2 h
  induction h with
  | slnil => exact le_refl _
  | cons a h2 ih => simp only [List.sum_cons]; omega
  | cons₂ a h2 ih => simp only [List.sum_cons]; omega

theorem sum_map_le_range (f : Nat → Nat) (n : Nat) :
    ∀ l : List Nat, l.Nodup → (∀ i ∈ l, i < n) →
      (l.map f).sum ≤ ((List.range n).map f).sum := by
  intro l hn hsub
  have hsubset : l ⊆ List.range n := fun i hi => List.mem_range.mpr (hsub i hi)
  obtain ⟨l2, hperm, hsl⟩ := hn.subperm hsubset
  calc (l.map f).sum = (l2.map f).sum := ((hperm.map f).sum_eq).symm
    _ ≤ ((List.range n).map f).sum := sublist_sum_le (hsl.map f)

theorem nthChild_eq_get (cs : List GameTree) (i : Nat) (h : i < cs.length) :
    nthChild cs i = cs.get ⟨i, h⟩ := by
  simp [nthChild, List.getD_eq_getElem?_getD, List.getElem?_eq_getElem h]

theorem treeIdsList_count_eq (x : Nat) :
    ∀ cs : List GameTree,
      List.count x (treeIdsList cs) =
        ((List.range cs.length).map (fun i => List.count x (treeIds (nthChild cs i)))).sum := by
  intro cs
  induction cs with
  | nil => simp [treeIdsList]
  | cons c rest ih =>
    simp only [treeIdsList, List.count_append, List.length_cons, List.range_succ_eq_map,
      List.map_cons, List.map_map, List.sum_cons, Function.comp, Nat.succ_eq_add_one]
    have h0 : nthChild (c :: rest) 0 = c := rfl
    have hcomp : (fun i => List.count x (treeIds (nthChild (c :: rest) i))) ∘ Nat.succ =
        fun i => List.count x (treeIds (nthChild rest i)) := by
      funext i
      simp [Function.comp, nthChild, Nat.succ_eq_add_one]
    rw [h0, hcomp, ih]

theorem count_treeIds_le (x : Nat) :
    ∀ (cs : List GameTree) (c : GameTree), c ∈ cs →
      List.count x (treeIds c) ≤ List.count x (treeIdsList cs) := by
  intro cs
  induction cs with
  | nil => intro c hc; simp at hc
  | cons c0 rest ih =>
    intro c hc
    simp only [treeIdsList, List.count_append]
    rcases List.mem_cons.mp hc with h | h
    · subst h
      omega
    · have := ih c h
      omega

theorem closes_addRegret_append (t : List Event) (key : String) (sc : ℚ) (rg : List ℚ) :
    closes (t ++ [Event.addRegret key sc rg]) = closes t := by
  simp [closes]

theorem closes_addRegret2_append (t : List Event) (id : Nat) (rp cp : ℚ) (adv : List ℚ) :
    closes (t ++ [Event.addRegret2 id rp cp adv]) = closes t := by
  simp [closes]

theorem closes_addStrategyWeight_cons (t : List Event) (key : String) (w : ℚ) :
    closes (Event.addStrategyWeight key w :: t) = closes t := by
  simp [closes]

theorem traverseLoop_count (recur : GameTree → Nat → ℚ → Nat → Cache → Res) (x : Nat)
    (hrec : ∀ t lp sp tp s,
      List.count x (closes (recur t lp sp tp s).2.2) ≤ List.count x (treeIds t))
    (cs : List GameTree) (player : Nat) (strategy : List ℚ) (q sp : ℚ) (tp : Nat) :
    ∀ (selected : List Nat) (regrets : List ℚ) (cf : ℚ) (s : Cache),
      List.count x
        (closes (traverseLoop recur cs player strategy q sp tp selected regrets cf s).2.2.2) ≤
      ((selected.filter (fun i => decide (i < cs.length))).map
        (fun i => List.count x (treeIds (nthChild cs i)))).sum := by
  intro selected
  induction selected with
  | nil =>
    intro regrets cf s
    simp [traverseLoop, closes]
  | cons i rest ih =>
    intro regrets cf s
    by_cases h : i < cs.length
    · simp only [traverseLoop, dif_pos h]
      rw [closes_append, List.count_append]
      have h1 := hrec (cs.get ⟨i, h⟩) player (q * sp) tp s
      have h2 := ih (regrets.set i (recur (cs.get ⟨i, h⟩) player (q * sp) tp s).1)
        (cf + get0 strategy i * (recur (cs.get ⟨i, h⟩) player (q * sp) tp s).1)
        (recur (cs.get ⟨i, h⟩) player (q * sp) tp s).2.1
      rw [List.filter_cons_of_pos (by simpa using h), List.map_cons, List.sum_cons,
        nthChild_eq_get cs i h]
      omega
    · simp only [traverseLoop, dif_neg h]
      have := ih regrets cf s
      rw [List.filter_cons_of_neg (by simpa using h)]
      exact this

theorem runHelperF_count (o : Oracle) (prof : String → List ℚ) (k : Nat)
    (hsh : ∀ id, (o.shuffle id).Nodup) (x : Nat) :
    ∀ (fuel : Nat) (node : GameTree) (lp : Nat) (sp : ℚ) (tp : Nat) (s : Cache),
      List.count x (closes (runHelperF o prof k fuel node lp sp tp s).2.2) ≤
        List.count x (treeIds node) := by
  intro fuel
  induction fuel with
  | zero =>
    intro node lp sp tp s
    simp [runHelperF, closes]
  | succ fuel ih =>
    intro node lp sp tp s
    cases node with
    | terminal id util => simp [runHelperF, closes, treeIds]
    | chance id cs =>
      simp only [runHelperF, treeIds]
      rw [closes_append, List.count_append, List.count_append]
      have hclose : List.count x (closes [Event.close id]) = List.count x [id] := by
        simp [closes]
      rw [hclose]
      have hhc : List.count x (closes
          (handleChanceNode o (fun t lp2 sp2 tp2 s2 => runHelperF o prof k fuel t lp2 sp2 tp2 s2)
            id cs lp sp tp s).2.2) ≤ List.count x (treeIdsList cs) := by
        simp only [handleChanceNode]
        by_cases h : o.chanceChoice id < cs.length
        · simp only [dif_pos h]
          exact le_trans (ih _ _ _ _ _) (count_treeIds_le x cs _ (List.get_mem cs _ h))
        · simp [dif_neg h, closes]
      omega
    | player id p key cs =>
      simp only [runHelperF, treeIds]
      rw [closes_append, List.count_append, List.count_append]
      have hclose : List.count x (closes [Event.close id]) = List.count x [id] := by
        simp [closes]
      rw [hclose]
      have hhp : List.count x (closes
          (handlePlayerNode o prof k
            (fun t lp2 sp2 tp2 s2 => runHelperF o prof k fuel t lp2 sp2 tp2 s2)
            id p key cs sp tp s).2.2) ≤ List.count x (treeIdsList cs) := by
        simp only [handlePlayerNode]
        by_cases htp : tp = p
        · simp only [if_pos htp, handleTraversingPlayerNode]
          rw [closes_addRegret_append]
          have hloop := traverseLoop_count
            (fun t lp2 sp2 tp2 s2 => runHelperF o prof k fuel t lp2 sp2 tp2 s2) x
            (fun t lp2 sp2 tp2 s2 => ih t lp2 sp2 tp2 s2) cs p (prof key)
            (1 / (cs.length : ℚ)) sp tp
            (if k < cs.length then (o.shuffle id).take k else arange cs.length)
            (allocBuf (o.allocInit id) cs.length) 0 s
          have hnodup : (if k < cs.length then (o.shuffle id).take k
              else arange cs.length).Nodup := by
            by_cases hk : k < cs.length
            · simp only [if_pos hk]
              exact (hsh id).sublist (List.take_sublist k _)
            · simp only [if_neg hk]
              simp [arange, List.nodup_range]
          have hsum := sum_map_le_range (fun i => List.count x (treeIds (nthChild cs i)))
            cs.length
            ((if k < cs.length then (o.shuffle id).take k
              else arange cs.length).filter (fun i => decide (i < cs.length)))
            (hnodup.filter _)
            (by
              intro i hi
              have := List.of_mem_filter hi
              simpa using this)
          rw [treeIdsList_count_eq x cs]
          omega
        · simp only [if_neg htp, handleSampledPlayerNode]
          rcases hl : List.lookup key s with _ | i
          · simp only [hl]
            by_cases h : sampleOne (prof key) (o.actionDraw id) < cs.length
            · simp only [dif_pos h, closes_addStrategyWeight_cons]
              exact le_trans (ih _ _ _ _ _) (count_treeIds_le x cs _ (List.get_mem cs _ h))
            · simp [dif_neg h, closes]
          · simp only [hl]
            by_cases h : i < cs.length
            · simp only [dif_pos h, closes_addStrategyWeight_cons]
              exact le_trans (ih _ _ _ _ _) (count_treeIds_le x cs _ (List.get_mem cs _ h))
            · simp [dif_neg h, closes]
      omega

theorem csLoop_count (recur : GameTree → Nat → ℚ → ℚ → CSRes) (x : Nat)
    (hrec : ∀ t lp r0 r1, List.count x (closes (recur t lp r0 r1).2) ≤
      List.count x (treeIds t))
    (cs : List GameTree) (player : Nat) (strategy : List ℚ) (r0 r1 : ℚ) :
    ∀ (idx : List Nat) (advantages : List ℚ) (eu : ℚ),
      List.count x (closes (csLoop recur cs player strategy r0 r1 idx advantages eu).2.2) ≤
      ((idx.filter (fun i => decide (i < cs.length))).map
        (fun i => List.count x (treeIds (nthChild cs i)))).sum := by
  intro idx
  induction idx with
  | nil =>
    intro advantages eu
    simp [csLoop, closes]
  | cons i rest ih =>
    intro advantages eu
    by_cases h : i < cs.length
    · simp only [csLoop, dif_pos h]
      by_cases hp : player = 0
      · simp only [if_pos hp]
        rw [closes_append, List.count_append]
        have h1 := hrec (cs.get ⟨i, h⟩) player (get0 strategy i * r0) r1
        have h2 := ih (advantages.set i
            (recur (cs.get ⟨i, h⟩) player (get0 strategy i * r0) r1).1)
          (eu + get0 strategy i * (recur (cs.get ⟨i, h⟩) player (get0 strategy i * r0) r1).1)
        rw [List.filter_cons_of_pos (by simpa using h), List.map_cons, List.sum_cons,
          nthChild_eq_get cs i h]
        omega
      · simp only [if_neg hp]
        rw [closes_append, List.count_append]
        have h1 := hrec (cs.get ⟨i, h⟩) player r0 (get0 strategy i * r1)
        have h2 := ih (advantages.set i
            (recur (cs.get ⟨i, h⟩) player r0 (get0 strategy i * r1)).1)
          (eu + get0 strategy i * (recur (cs.get ⟨i, h⟩) player r0 (get0 strategy i * r1)).1)
        rw [List.filter_cons_of_pos (by simpa using h), List.map_cons, List.sum_cons,
          nthChild_eq_get cs i h]
        omega
    · simp only [csLoop, dif_neg h]
      have := ih advantages eu
      rw [List.filter_cons_of_neg (by simpa using h)]
      exact this

theorem csRunHelperF_count (o : Oracle) (prof : String → List ℚ) (x : Nat) :
    ∀ (fuel : Nat) (node : GameTree) (lp : Nat) (r0 r1 : ℚ),
      List.count x (closes (csRunHelperF o prof fuel node lp r0 r1).2) ≤
        List.count x (treeIds node) := by
  intro fuel
  induction fuel with
  | zero =>
    intro node lp r0 r1
    simp [csRunHelperF, closes]
  | succ fuel ih =>
    intro node lp r0 r1
    cases node with
    | terminal id util => simp [csRunHelperF, closes, treeIds]
    | chance id cs =>
      simp only [csRunHelperF, treeIds]
      rw [closes_append, List.count_append, List.count_append]
      have hclose : List.count x (closes [Event.close id]) = List.count x [id] := by
        simp [closes]
      rw [hclose]
      have hhc : List.count x (closes
          (if h : o.chanceChoice id < cs.length then
            csRunHelperF o prof fuel (cs.get ⟨o.chanceChoice id, h⟩) lp r0 r1
          else (0, [])).2) ≤ List.count x (treeIdsList cs) := by
        by_cases h : o.chanceChoice id < cs.length
        · simp only [dif_pos h]
          exact le_trans (ih _ _ _ _) (count_treeIds_le x cs _ (List.get_mem cs _ h))
        · simp [dif_neg h, closes]
      omega
    | player id p key cs =>
      simp only [csRunHelperF, treeIds]
      rw [closes_append, List.count_append, List.count_append]
      have hclose : List.count x (closes [Event.close id]) = List.count x [id] := by
        simp [closes]
      rw [hclose]
      have hhp : List.count x (closes
          (csHandlePlayerNode o prof
            (fun t lp2 r02 r12 => csRunHelperF o prof fuel t lp2 r02 r12)
            id p key cs r0 r1).2) ≤ List.count x (treeIdsList cs) := by
        simp only [csHandlePlayerNode]
        rw [closes_addRegret2_append]
        have hloop := csLoop_count
          (fun t lp2 r02 r12 => csRunHelperF o prof fuel t lp2 r02 r12) x
          (fun t lp2 r02 r12 => ih t lp2 r02 r12) cs p (prof key) r0 r1
          (arange cs.length) (allocBuf (o.allocInit id) cs.length) 0
        have hsum := sum_map_le_range (fun i => List.count x (treeIds (nthChild cs i)))
          cs.length
          ((arange cs.length).filter (fun i => decide (i < cs.length)))
          ((by simp [arange, List.nodup_range] : (arange cs.length).Nodup).filter _)
          (by
            intro i hi
            have := List.of_mem_filter hi
            simpa using this)
        rw [treeIdsList_count_eq x cs]
        omega
      omega

theorem runHelperF_shape (o : Oracle) (prof : String → List ℚ) (k fuel : Nat)
    (node : GameTree) (lp : Nat) (sp : ℚ) (tp : Nat) (s : Cache) :
    ∃ t2, (runHelperF o prof k (fuel + 1) node lp sp tp s).2.2 =
      t2 ++ [Event.close (rootId node)] := by
  cases node with
  | terminal id util => exact ⟨[], rfl⟩
  | chance id cs => exact ⟨_, rfl⟩
  | player id p key cs => exact ⟨_, rfl⟩

theorem csRunHelperF_shape (o : Oracle) (prof : String → List ℚ) (fuel : Nat)
    (node : GameTree) (lp : Nat) (r0 r1 : ℚ) :
    ∃ t2, (csRunHelperF o prof (fuel + 1) node lp r0 r1).2 =
      t2 ++ [Event.close (rootId node)] := by
  cases node with
  | terminal id util => exact ⟨[], rfl⟩
  | chance id cs => exact ⟨_, rfl⟩
  | player id p key cs => exact ⟨_, rfl⟩

/-- C9: in both engines, every evaluation's trace ends with the `Close` of
the node it was called on — the node is closed exactly once, immediately
after its value is computed, and only after all the `Close` calls performed
inside its subtree evaluation (each child is closed before its parent); the
ids closed are bounded, with multiplicity, by the subtree's node ids, and
with distinct node ids no node is ever closed twice. The statement holds
for every node, so it applies at every level of the recursion. -/
theorem claim_C9_closeOnce (o : Oracle) (prof : String → List ℚ) (k : Nat)
    (node : GameTree) (hsh : ∀ id, (o.shuffle id).Nodup)
    (hids : (treeIds node).Nodup) :
    (∀ fuel (lp : Nat) (sp : ℚ) (tp : Nat) (s : Cache),
      (∃ t2, (runHelperF o prof k (fuel + 1) node lp sp tp s).2.2 =
        t2 ++ [Event.close (rootId node)])
      ∧ (∀ x, List.count x (closes (runHelperF o prof k (fuel + 1) node lp sp tp s).2.2) ≤
          List.count x (treeIds node))
      ∧ (closes (runHelperF o prof k (fuel + 1) node lp sp tp s).2.2).Nodup)
    ∧ (∀ fuel (lp : Nat) (r0 r1 : ℚ),
      (∃ t2, (csRunHelperF o prof (fuel + 1) node lp r0 r1).2 =
        t2 ++ [Event.close (rootId node)])
      ∧ (∀ x, List.count x (closes (csRunHelperF o prof (fuel + 1) node lp r0 r1).2) ≤
          List.count x (treeIds node))
      ∧ (closes (csRunHelperF o prof (fuel + 1) node lp r0 r1).2).Nodup) := by
  have hcount1 := fun x => runHelperF_count o prof k hsh x
  have hcount2 := fun x => csRunHelperF_count o prof x
  have hbound : ∀ x : Nat, List.count x (treeIds node) ≤ 1 :=
    List.nodup_iff_count_le_one.mp hids
  constructor
  · intro fuel lp sp tp s
    refine ⟨runHelperF_shape o prof k fuel node lp sp tp s, fun x => hcount1 x _ node lp sp tp s, ?_⟩
    rw [List.nodup_iff_count_le_one]
    intro a
    exact le_trans (hcount1 a _ node lp sp tp s) (hbound a)
  · intro fuel lp r0 r1
    refine ⟨csRunHelperF_shape o prof fuel node lp r0 r1, fun x => hcount2 x _ node lp r0 r1, ?_⟩
    rw [List.nodup_iff_count_le_one]
    intro a
    exact le_trans (hcount2 a _ node lp r0 r1) (hbound a)

/-- Witness for C9 at the concrete two-leaf game. -/
theorem claim_C9_closeOnce_witness :
    ((∀ id, (oracle0.shuffle id).Nodup) ∧ (treeIds game0).Nodup) ∧
      ∃ t2, (runHelperF oracle0 prof2 1 (1 + 1) game0 0 1 0 []).2.2 =
        t2 ++ [Event.close (rootId game0)] :=
  ⟨⟨fun _ => by simp [oracle0], by simp [game0, csLeaves, treeIds, treeIdsList]⟩,
    ((claim_C9_closeOnce oracle0 prof2 1 game0 (fun _ => by simp [oracle0])
      (by simp [game0, csLeaves, treeIds, treeIdsList])).1 1 0 1 0 []).1⟩

end GoCfr